import Mathlib

set_option maxHeartbeats 1000000

/-!
Verification of the twenty-number-challenge simulation engine.

The Rust sources (`engine.rs`, `strategies.rs`, `strategy.rs`, `main.rs`) are
shallowly embedded below: machine integers `i32` become `Int`, `usize` becomes
`Nat` (Rust release-mode wrapping subtraction on `usize` is only ever reached
on inputs the engine never produces; `Nat` truncated subtraction is used at
those spots), slices `&[Option<i32>]` become `List (Option Int)`, and the
random draw sequence of a trial becomes an explicit `List Int` parameter.
Panics (`unwrap` on a missing lookup-table key) are modelled with `Option`.
-/

namespace TwentyNumbers

/-- `NUM_SLOTS` from `engine.rs`: the board has 20 slots. -/
def NUM_SLOTS : Nat := 20

/-- `LOWER_BOUND` from `engine.rs`: lower boundary (no number is less than 0). -/
def LOWER_BOUND : Int := -1

/-- `UPPER_BOUND` from `engine.rs`: upper boundary (all numbers are `< UPPER_BOUND`). -/
def UPPER_BOUND : Int := 999 + 1

/-- `Gap` from `engine.rs`: a contiguous group of empty slots along with the
boundaries in which a number must lie. -/
structure Gap where
  lower : Int
  upper : Int
  first_index : Nat
  last_index : Nat
deriving DecidableEq, Repr

/-- The scan loop at the top of `find_valid_gap` (`engine.rs` lines 30-50).
The Rust code tracks `have_start/start` and `have_end/end`; the two `Option Nat`
components below combine each flag with its index.  `i` is the enumeration
index, `s` the `start` accumulator.  On `Ordering.Less` the slot index becomes
the new `start`; on `Ordering.Greater` the loop breaks with `end = i`; on
equality the slot is skipped. -/
def findGapScan : List (Option Int) → Int → Nat → Option Nat → Option Nat × Option Nat
  | [], _, _, s => (s, none)
  | o :: rest, number, i, s =>
    match o with
    | none => findGapScan rest number (i + 1) s
    | some v =>
      if v < number then findGapScan rest number (i + 1) (some i)
      else if number < v then (s, some i)
      else findGapScan rest number (i + 1) s

/-- Value stored at board slot `i`; models `board[i].unwrap()` (the default `0`
is never reached on the indices the engine reads, which always hold `some`). -/
def valAt (board : List (Option Int)) (i : Nat) : Int :=
  (board.getD i none).getD 0

/-- `find_valid_gap` from `engine.rs` lines 29-100: finds the gap (if any)
where `number` can be legally placed given the current board. -/
def find_valid_gap (board : List (Option Int)) (number : Int) : Option Gap :=
  match findGapScan board number 0 none with
  | (none, none) =>
      some ⟨LOWER_BOUND, UPPER_BOUND, 0, NUM_SLOTS - 1⟩
  | (none, some e) =>
      if e = 0 then none
      else some ⟨LOWER_BOUND, valAt board e, 0, e - 1⟩
  | (some s, none) =>
      if s = NUM_SLOTS - 1 then none
      else some ⟨valAt board s, UPPER_BOUND, s + 1, NUM_SLOTS - 1⟩
  | (some s, some e) =>
      if e - s ≤ 1 then none
      else some ⟨valAt board s, valAt board e, s + 1, e - 1⟩

/-- A strategy as the engine sees it through the `Strategy` trait
(`strategy.rs` / `strategies.rs`): the `want_full_control` capability flag and
the `choose_slot` decision function
`(lower, upper, first_slot, last_slot, number, current_board) -> usize`. -/
structure StrategyM where
  want_full_control : Bool
  choose_slot : Int → Int → Nat → Nat → Int → List (Option Int) → Nat

/-- The per-draw slot decision of `simulate_game_multi` (`engine.rs` lines
139-169): a strategy with `want_full_control` is dispatched to directly;
otherwise the forced fast-path rules run first and `choose_slot` is the final
fallback.  The `first_index == last_index - 1` test uses `usize` subtraction in
Rust; `Nat` subtraction agrees on every gap the engine produces
(`first_index ≤ last_index`). -/
def engineChoose (wantFull : Bool)
    (choose : Int → Int → Nat → Nat → Int → List (Option Int) → Nat)
    (g : Gap) (number : Int) (board : List (Option Int)) : Nat :=
  if wantFull then
    choose g.lower g.upper g.first_index g.last_index number board
  else if g.first_index = g.last_index ∨ number = g.lower + 1 then
    g.first_index
  else if number + 1 = g.upper then
    g.last_index
  else if g.first_index = g.last_index - 1 then
    if number - g.lower < g.upper - number then g.first_index else g.last_index
  else
    choose g.lower g.upper g.first_index g.last_index number board

/-- The forced fast-path rules of the engine in isolation (the four
non-delegating branches of `engine.rs` lines 148-159, in order); `none` when
no forced rule applies and the decision is delegated to the strategy. -/
def forcedSlot (g : Gap) (number : Int) : Option Nat :=
  if g.first_index = g.last_index ∨ number = g.lower + 1 then
    some g.first_index
  else if number + 1 = g.upper then
    some g.last_index
  else if g.first_index = g.last_index - 1 then
    some (if number - g.lower < g.upper - number then g.first_index else g.last_index)
  else
    none

/-- Per-strategy trial state of `simulate_game_multi`: the board, the
`placed_counts[i]` counter and the `completed[i]` flag. -/
structure StratState where
  board : List (Option Int)
  placed : Nat
  completed : Bool
deriving DecidableEq, Repr

/-- Initial per-strategy state: an all-empty board, zero placements. -/
def initState : StratState :=
  ⟨List.replicate NUM_SLOTS none, 0, false⟩

/-- One iteration of the inner loop of `simulate_game_multi` (`engine.rs` lines
132-180) for a single strategy and a single drawn number: completed strategies
are skipped; otherwise the gap is computed, the slot chosen, the board updated,
and a full board (or the absence of a gap) marks the strategy completed. -/
def stepOne (s : StrategyM) (st : StratState) (number : Int) : StratState :=
  if st.completed then st
  else
    match find_valid_gap st.board number with
    | some gap =>
        let chosen := engineChoose s.want_full_control s.choose_slot gap number st.board
        let board := st.board.set chosen (some number)
        let placed := st.placed + 1
        ⟨board, placed, decide (placed = NUM_SLOTS)⟩
    | none => ⟨st.board, st.placed, true⟩

/-- The draw loop of `simulate_game_multi`, parameterised by the shuffled draw
sequence (the Rust code samples `NUM_SLOTS` distinct numbers; here they are an
explicit argument).  The Rust early exit once every strategy has completed is
omitted: `stepOne` is the identity on completed states, so the final states
agree. -/
def runTrial (strats : List StrategyM) (numbers : List Int) : List StratState :=
  numbers.foldl
    (fun sts n => List.zipWith (fun s st => stepOne s st n) strats sts)
    (strats.map (fun _ => initState))

/-- `OptimalWinStrategy::choose_slot` (`strategies.rs` lines 11-37).  The Rust
`f64` expression `((number - lower) as f64 * num_slots as f64) / (upper - lower) as f64`
followed by `.floor() as usize` is modelled by exact integer arithmetic: every
operand is an integer of magnitude at most a few thousand, so the product is
exact in `f64` and the floored quotient of two such integers computed in `f64`
equals the exact floored quotient; `as usize` on a negative value saturates to
`0`, as `Int.toNat` does.  The `assert!(num_slots >= 3)` precondition appears
as a hypothesis of the theorems about this function. -/
def optimalWinChoose (lower upper : Int) (first_slot last_slot : Nat)
    (number : Int) (_current_board : List (Option Int)) : Nat :=
  let num_slots := last_slot - first_slot + 1
  let slot_index := (((number - lower) * (num_slots : Int)) / (upper - lower)).toNat
  let slot_index := min slot_index (num_slots - 1)
  first_slot + slot_index

/-- `Candidate` from `strategies.rs`: one lookup-table record. -/
structure Candidate where
  upper_bound : Int
  placement_index : Nat
deriving DecidableEq, Repr

/-- The candidate-selection loop of `LookupTableStrategy::choose_slot`
(`strategies.rs` lines 330-336): `best_candidate_index` is set to each index in
turn and the loop breaks at the first candidate whose `upper_bound` is at least
`offset`; if none qualifies the last index remains.  `go i cands` returns the
final `best_candidate_index` given that `cands` are the entries from position
`i` on; on the empty tail the previously set index `i - 1` remains (for an
empty table the initial `0` remains, matching the Rust initialisation). -/
def bestCandidateGo (offset : Int) : Nat → List Candidate → Nat
  | i, [] => i - 1
  | i, c :: rest => if offset ≤ c.upper_bound then i else bestCandidateGo offset (i + 1) rest

/-- `best_candidate_index` for a full candidate list. -/
def bestCandidateIndex (cands : List Candidate) (offset : Int) : Nat :=
  bestCandidateGo offset 0 cands

/-- `LookupTableStrategy::choose_slot` (`strategies.rs` lines 303-340).  The
`HashMap` built by `LookupTableStrategy::new` is modelled as a function from a
`(num_slots, num_values)` key to the candidate list for that key, the empty
list standing for an absent key (`new` never inserts an empty list).  The Rust
code panics when the key is absent; that abort is modelled as `none`. -/
def lookupChoose (table : Nat × Nat → List Candidate)
    (lower upper : Int) (first_slot last_slot : Nat) (number : Int) : Option Nat :=
  let gap_slots := last_slot - first_slot + 1
  let gap_values := (upper - lower - 1).toNat
  let offset := number - lower - 1
  let cands := table (gap_slots, gap_values)
  match cands with
  | [] => none
  | _ :: _ =>
      some (first_slot + (cands.getD (bestCandidateIndex cands offset) ⟨0, 0⟩).placement_index)

/-- The leftmost board index holding an occupied value strictly greater than
`number`, if any — the claimed characterisation of the scan's `end` index
("leftmost occupied index with value greater than number"). -/
def idxAbove : List (Option Int) → Int → Option Nat
  | [], _ => none
  | none :: rest, number => (idxAbove rest number).map (· + 1)
  | some v :: rest, number =>
      if number < v then some 0 else (idxAbove rest number).map (· + 1)

/-- The rightmost board index holding an occupied value strictly less than
`number`, if any. -/
def idxBelowLast : List (Option Int) → Int → Option Nat
  | [], _ => none
  | o :: rest, number =>
      match idxBelowLast rest number with
      | some j => some (j + 1)
      | none =>
        match o with
        | some v => if v < number then some 0 else none
        | none => none

/-- The claimed `end` index: leftmost occupied index with value greater than
`number` (the scan stops there). -/
def specEnd (board : List (Option Int)) (number : Int) : Option Nat :=
  idxAbove board number

/-- The index at which the scan stops: the `end` index when one exists,
otherwise the board length. -/
def specStop (board : List (Option Int)) (number : Int) : Nat :=
  (specEnd board number).getD board.length

/-- The claimed `start` index: rightmost occupied index with value less than
`number` among the indices the scan visits (it stops at `end`). -/
def specStart (board : List (Option Int)) (number : Int) : Option Nat :=
  idxBelowLast (board.take (specStop board number)) number

/-- The resolution table of `find_valid_gap` by presence of the `start` and
`end` indices, exactly as the specification describes it. -/
def resolveGap (board : List (Option Int)) : Option Nat → Option Nat → Option Gap
  | none, none =>
      some ⟨LOWER_BOUND, UPPER_BOUND, 0, NUM_SLOTS - 1⟩
  | none, some e =>
      if e = 0 then none
      else some ⟨LOWER_BOUND, valAt board e, 0, e - 1⟩
  | some s, none =>
      if s = NUM_SLOTS - 1 then none
      else some ⟨valAt board s, UPPER_BOUND, s + 1, NUM_SLOTS - 1⟩
  | some s, some e =>
      if e - s ≤ 1 then none
      else some ⟨valAt board s, valAt board e, s + 1, e - 1⟩

/-- The per-trial, per-strategy one-hot histogram contribution of
`run_simulations_multi` (`engine.rs` lines 226-229): starting from
`[0; NUM_SLOTS + 1]`, bucket `placed_count` is incremented once. -/
def trialHist (strats : List StrategyM) (numbers : List Int) : List (List Nat) :=
  (runTrial strats numbers).map
    (fun st => (List.replicate (NUM_SLOTS + 1) 0).set st.placed 1)

/-- Elementwise addition of two per-strategy bucket arrays — the inner loop of
the `reduce` combine closure in `run_simulations_multi` (`engine.rs` lines
236-238). -/
def histAdd (a b : List Nat) : List Nat :=
  List.zipWith (· + ·) a b

/-- The combine step of the `reduce` in `run_simulations_multi` (`engine.rs`
lines 234-241): elementwise addition of per-strategy histogram collections. -/
def histsAdd (a b : List (List Nat)) : List (List Nat) :=
  List.zipWith histAdd a b

/-- The `reduce` identity of `run_simulations_multi` (`engine.rs` line 233):
one all-zero histogram per strategy. -/
def emptyHists (numStrategies : Nat) : List (List Nat) :=
  List.replicate numStrategies (List.replicate (NUM_SLOTS + 1) 0)

/-- `run_simulations_multi` (`engine.rs` lines 213-249), parameterised by the
per-trial draw sequences and evaluated in the sequential reduction order (the
parallel `rayon` reduction combines the same per-trial histograms with the same
associative and commutative operation; order-independence is proved below). -/
def runSimulationsMulti (strats : List StrategyM) (trials : List (List Int)) :
    List (List Nat) :=
  trials.foldl
    (fun acc numbers => histsAdd acc (trialHist strats numbers))
    (emptyHists strats.length)

/-- The board invariant stated by the specification: the sequence of occupied
values, read by increasing index, is strictly increasing. -/
def BoardSorted (board : List (Option Int)) : Prop :=
  List.Pairwise (· < ·) board.reduceOption

/-- A `choose_slot` implementation that honours the documented contract: on
every gap with `first_slot ≤ last_slot` it returns an index inside the gap. -/
def ChooseInRange (s : StrategyM) : Prop :=
  ∀ lo hi f l n b, f ≤ l →
    f ≤ s.choose_slot lo hi f l n b ∧ s.choose_slot lo hi f l n b ≤ l

/-- The claimed characterisation of `find_valid_gap = none`, read literally:
"no integer strictly between the two occupied values bracketing `number`, or
no room before the first occupied value, or no room after the last occupied
value". -/
def noGapStated (board : List (Option Int)) (number : Int) : Prop :=
  match idxBelowLast board number, idxAbove board number with
  | some bl, some bh => ¬ ∃ m : Int, valAt board bl < m ∧ m < valAt board bh
  | none, some bh => bh = 0
  | some bl, none => bl = NUM_SLOTS - 1
  | none, none => False

/-- The corrected characterisation: adjacency of the bracketing occupied slots
(no empty slot between them) replaces the no-integer-between-the-values test. -/
def noGapAmended (board : List (Option Int)) (number : Int) : Prop :=
  match idxBelowLast board number, idxAbove board number with
  | some bl, some bh => bh = bl + 1
  | none, some bh => bh = 0
  | some bl, none => bl = NUM_SLOTS - 1
  | none, none => False

/-- A 20-slot board whose occupied prefix is `3, 5` — used to exercise
`find_valid_gap` on a number already present on the board. -/
def boardDup : List (Option Int) :=
  some 3 :: some 5 :: List.replicate 18 none

/-- A 20-slot board whose occupied prefix is `10, 12` — adjacent occupied
slots with a value-gap of two. -/
def boardPair : List (Option Int) :=
  some 10 :: some 12 :: List.replicate 18 none

/-- A lookup table with a single record `(num_slots 3, num_values 5,
placement_index 7, upper_bound 10)`: its placement offset exceeds the slot
count of its own key. -/
def badTable : Nat × Nat → List Candidate :=
  fun k => if k = (3, 5) then [⟨10, 7⟩] else []

/-- A `choose_slot` function that always answers the last slot of the gap. -/
def chooseLastFn : Int → Int → Nat → Nat → Int → List (Option Int) → Nat :=
  fun _ _ _ l _ _ => l

/-- A `choose_slot` function that always answers the first slot of the gap. -/
def chooseFirstFn : Int → Int → Nat → Nat → Int → List (Option Int) → Nat :=
  fun _ _ f _ _ _ => f

/-- A strategy without the full-control capability that always answers the
first slot of the gap. -/
def stratFirst : StrategyM :=
  ⟨false, chooseFirstFn⟩

/-- A four-slot gap `(lower 0, upper 10, indices 2..5)`: for the draw `1` the
engine's second forced rule (`number == lower + 1`) applies. -/
def gapForced : Gap :=
  ⟨0, 10, 2, 5⟩

/-- The specification's example lookup table: the single record
`(num_slots 5, num_values 10, placement_index 2, upper_bound 4)`. -/
def specTable : Nat × Nat → List Candidate :=
  fun k => if k = (5, 10) then [⟨4, 2⟩] else []

/-- `CautiousOptimalStrategy::choose_slot` (`strategies.rs` lines 49-89), its
`f64` arithmetic modelled exactly over `Rat`.  Float rounding can shift the
epsilon comparisons or the floored interior fraction only at branch
boundaries; the range theorems below hold for every outcome of those
computations.  `as usize` saturation of a negative floor is `Int.toNat`; for
an `epsilon_percent` so large that the Rust denominator is nonpositive, the
`f64` division yields an infinity or NaN (saturating to `usize::MAX` or `0`)
while `Rat` yields `0` on a zero denominator — the final `min` clamp keeps the
result in range in every one of those cases.  The `assert!(num_slots >= 3)`
precondition appears as a hypothesis of the theorems. -/
def cautiousOptimalChoose (epsilon_percent : Nat) (lower upper : Int)
    (first_slot last_slot : Nat) (number : Int)
    (_current_board : List (Option Int)) : Nat :=
  let num_slots := last_slot - first_slot + 1
  let slot_size : Rat := ((upper - lower : Int) : Rat) / (num_slots : Rat)
  let epsilon_fraction : Rat := (epsilon_percent : Rat) / 100
  let epsilon_threshold := epsilon_fraction * slot_size
  if ((number - lower : Int) : Rat) < epsilon_threshold then
    first_slot
  else if ((upper - number : Int) : Rat) < epsilon_threshold then
    last_slot
  else
    let adjusted_fraction := (((number : Rat) - (lower : Rat)) - epsilon_threshold) /
      (((upper : Rat) - (lower : Rat)) - 2 * epsilon_threshold)
    let inner_slot := (adjusted_fraction * ((num_slots : Rat) - 2)).floor.toNat
    first_slot + 1 + min inner_slot (num_slots - 3)

/-- `GaussianStrategy::choose_slot` (`strategies.rs` lines 96-124).  The `f64`
pipeline computing `new_fraction` (normalisation of `number`, then the
erf-based normal CDF warp with the fixed-point sigma) is abstracted as the
parameter `newFraction`, since `erf` and `sqrt 2` have no exact rational
form; the subsequent rounding, `as usize` saturation and clamping are
modelled exactly, so the theorems below hold for every value the abstracted
computation can produce. -/
def gaussianChoose (newFraction : Int → Int → Int → Rat) (lower upper : Int)
    (first_slot last_slot : Nat) (number : Int)
    (_current_board : List (Option Int)) : Nat :=
  let num_slots := last_slot - first_slot + 1
  let slot_index := (round (newFraction lower upper number * ((num_slots - 1 : Nat) : Rat))).toNat
  first_slot + min slot_index (num_slots - 1)

/-- The `binom` helper shared by `BinomialStrategy` and
`BinomialQuantizedStrategy` (`strategies.rs` lines 131-140 and 187-196), its
`f64` arithmetic modelled exactly over `Rat`. -/
def binomF (n k : Nat) : Rat :=
  if k > n then 0
  else (List.range k).foldl
    (fun result i => result * (((n - i : Nat) : Rat) / ((i + 1 : Nat) : Rat))) 1

/-- The `best_k`/`best_prob` selection loop shared by `BinomialStrategy` and
`BinomialQuantizedStrategy` (`strategies.rs` lines 164-176 and 225-240):
`best_k` starts at `0` with best score `-1.0`, and is replaced whenever a
candidate slot's score is strictly greater. -/
def argmaxScore (score : Nat → Rat) (num_slots : Nat) : Nat :=
  ((List.range num_slots).foldl
    (fun (acc : Nat × Rat) k => if acc.2 < score k then (k, score k) else acc)
    (0, -1)).1

/-- `BinomialStrategy::choose_slot` (`strategies.rs` lines 144-180), the `f64`
probabilities modelled exactly over `Rat`; float rounding can only change
which slot maximises the score, never that the selected `best_k` lies in
`0..num_slots`. -/
def binomialChoose (lower upper : Int) (first_slot last_slot : Nat)
    (number : Int) (_current_board : List (Option Int)) : Nat :=
  let num_slots := last_slot - first_slot + 1
  let x : Rat := ((number - lower : Int) : Rat) / ((upper - lower : Int) : Rat)
  let remaining := num_slots - 1
  first_slot +
    argmaxScore (fun k => binomF remaining k * x ^ k * (1 - x) ^ (remaining - k)) num_slots

/-- `BinomialQuantizedStrategy::choose_slot` (`strategies.rs` lines 200-244),
the `f64` likelihoods modelled exactly over `Rat`.  The `usize` subtractions
computing the option counts cannot underflow on valid gaps
(`lower < number < upper`). -/
def binomialQuantizedChoose (lower upper : Int) (first_slot last_slot : Nat)
    (number : Int) (_current_board : List (Option Int)) : Nat :=
  let num_slots := last_slot - first_slot + 1
  let num_options_lower := (number - lower).toNat - 1
  let num_options_upper := (upper - number).toNat - 1
  let remaining := num_slots - 1
  first_slot +
    argmaxScore
      (fun k => binomF num_options_lower k * binomF num_options_upper (remaining - k))
      num_slots

/-- Modelled from the spec: `FirstAvailableStrategy` is instantiated by
`main.rs` but its definition is missing from the available sources; the spec's
strategy table says it always answers `first_index`. -/
def firstAvailableChoose (_lower _upper : Int) (first_slot _last_slot : Nat)
    (_number : Int) (_current_board : List (Option Int)) : Nat :=
  first_slot

/-- Modelled from the spec: `LastAvailableStrategy` is instantiated by
`main.rs` but its definition is missing from the available sources; the spec's
strategy table says it always answers `last_index`. -/
def lastAvailableChoose (_lower _upper : Int) (_first_slot last_slot : Nat)
    (_number : Int) (_current_board : List (Option Int)) : Nat :=
  last_slot

/-- Modelled from the spec: `MiddleStrategy` is instantiated by `main.rs` but
its definition is missing from the available sources; the spec's strategy
table says it answers the midpoint index of the gap. -/
def middleChoose (_lower _upper : Int) (first_slot last_slot : Nat)
    (_number : Int) (_current_board : List (Option Int)) : Nat :=
  (first_slot + last_slot) / 2

/-! ### Characterisation of the scan indices -/

theorem idxAbove_eq_none_iff (l : List (Option Int)) (number : Int) :
    idxAbove l number = none ↔
      ∀ j v, l.getD j none = some v → v ≤ number := by
  induction l with
  | nil => simp [idxAbove]
  | cons o rest ih =>
    cases o with
    | none =>
      rw [show idxAbove (none :: rest) number = (idxAbove rest number).map (· + 1) from rfl,
        Option.map_eq_none', ih]
      constructor
      · intro h j v hj
        cases j with
        | zero => simp at hj
        | succ j => exact h j v (by simpa using hj)
      · intro h j v hj
        exact h (j + 1) v (by simpa using hj)
    | some v =>
      by_cases hv : number < v
      · rw [show idxAbove (some v :: rest) number = some 0 from by simp [idxAbove, hv]]
        simp only [reduceCtorEq, false_iff, not_forall]
        exact ⟨0, v, by simp, by omega⟩
      · rw [show idxAbove (some v :: rest) number = (idxAbove rest number).map (· + 1) from by
          simp [idxAbove, hv], Option.map_eq_none', ih]
        constructor
        · intro h j w hj
          cases j with
          | zero =>
            simp only [List.getD_cons_zero, Option.some.injEq] at hj
            omega
          | succ j => exact h j w (by simpa using hj)
        · intro h j w hj
          exact h (j + 1) w (by simpa using hj)

theorem idxAbove_eq_some_iff (l : List (Option Int)) (number : Int) (e : Nat) :
    idxAbove l number = some e ↔
      (∃ v, l.getD e none = some v ∧ number < v) ∧
        ∀ j, j < e → ∀ v, l.getD j none = some v → v ≤ number := by
  induction l generalizing e with
  | nil => simp [idxAbove]
  | cons o rest ih =>
    cases o with
    | none =>
      rw [show idxAbove (none :: rest) number = (idxAbove rest number).map (· + 1) from rfl,
        Option.map_eq_some']
      constructor
      · rintro ⟨e', he', rfl⟩
        obtain ⟨⟨v, hv, hnv⟩, hbef⟩ := (ih e').mp he'
        refine ⟨⟨v, by simpa using hv, hnv⟩, ?_⟩
        intro j hj w hw
        cases j with
        | zero => simp at hw
        | succ j => exact hbef j (by omega) w (by simpa using hw)
      · rintro ⟨⟨v, hv, hnv⟩, hbef⟩
        cases e with
        | zero => simp at hv
        | succ e =>
          refine ⟨e, (ih e).mpr ⟨⟨v, by simpa using hv, hnv⟩, ?_⟩, rfl⟩
          intro j hj w hw
          exact hbef (j + 1) (by omega) w (by simpa using hw)
    | some v =>
      by_cases hv : number < v
      · rw [show idxAbove (some v :: rest) number = some 0 from by simp [idxAbove, hv]]
        constructor
        · rintro h
          injection h with h
          subst h
          exact ⟨⟨v, by simp, hv⟩, by omega⟩
        · rintro ⟨⟨w, hw, hnw⟩, hbef⟩
          cases e with
          | zero => rfl
          | succ e =>
            exact absurd (hbef 0 (by omega) v (by simp)) (by omega)
      · rw [show idxAbove (some v :: rest) number = (idxAbove rest number).map (· + 1) from by
          simp [idxAbove, hv], Option.map_eq_some']
        constructor
        · rintro ⟨e', he', rfl⟩
          obtain ⟨⟨w, hw, hnw⟩, hbef⟩ := (ih e').mp he'
          refine ⟨⟨w, by simpa using hw, hnw⟩, ?_⟩
          intro j hj u hu
          cases j with
          | zero =>
            simp only [List.getD_cons_zero, Option.some.injEq] at hu
            omega
          | succ j => exact hbef j (by omega) u (by simpa using hu)
        · rintro ⟨⟨w, hw, hnw⟩, hbef⟩
          cases e with
          | zero =>
            simp only [List.getD_cons_zero, Option.some.injEq] at hw
            omega
          | succ e =>
            refine ⟨e, (ih e).mpr ⟨⟨w, by simpa using hw, hnw⟩, ?_⟩, rfl⟩
            intro j hj u hu
            exact hbef (j + 1) (by omega) u (by simpa using hu)

theorem idxBelowLast_some_val (l : List (Option Int)) (number : Int) :
    ∀ s, idxBelowLast l number = some s →
      ∃ v, l.getD s none = some v ∧ v < number := by
  induction l with
  | nil => simp [idxBelowLast]
  | cons o rest ih =>
    intro s hs
    cases hr : idxBelowLast rest number with
    | some j =>
      rw [show idxBelowLast (o :: rest) number = some (j + 1) from by
        simp [idxBelowLast, hr]] at hs
      injection hs with hs
      subst hs
      obtain ⟨v, hv, hlt⟩ := ih j hr
      exact ⟨v, by simpa using hv, hlt⟩
    | none =>
      cases o with
      | none =>
        rw [show idxBelowLast (none :: rest) number = none from by
          simp [idxBelowLast, hr]] at hs
        cases hs
      | some v =>
        by_cases hv : v < number
        · rw [show idxBelowLast (some v :: rest) number = some 0 from by
            simp [idxBelowLast, hr, hv]] at hs
          injection hs with hs
          subst hs
          exact ⟨v, by simp, hv⟩
        · rw [show idxBelowLast (some v :: rest) number = none from by
            simp [idxBelowLast, hr, hv]] at hs
          cases hs

theorem idxBelowLast_eq_none_iff (l : List (Option Int)) (number : Int) :
    idxBelowLast l number = none ↔
      ∀ j v, l.getD j none = some v → number ≤ v := by
  induction l with
  | nil => simp [idxBelowLast]
  | cons o rest ih =>
    cases hr : idxBelowLast rest number with
    | some j =>
      rw [show idxBelowLast (o :: rest) number = some (j + 1) from by
        simp [idxBelowLast, hr]]
      simp only [reduceCtorEq, false_iff, not_forall]
      obtain ⟨v, hv, hvlt⟩ := idxBelowLast_some_val rest number j hr
      exact ⟨j + 1, v, by simpa using hv, by omega⟩
    | none =>
      cases o with
      | none =>
        rw [show idxBelowLast (none :: rest) number = none from by simp [idxBelowLast, hr]]
        rw [ih] at hr
        simp only [true_iff]
        intro j v hj
        cases j with
        | zero => simp at hj
        | succ j => exact hr j v (by simpa using hj)
      | some v =>
        by_cases hv : v < number
        · rw [show idxBelowLast (some v :: rest) number = some 0 from by
            simp [idxBelowLast, hr, hv]]
          simp only [reduceCtorEq, false_iff, not_forall]
          exact ⟨0, v, by simp, by omega⟩
        · rw [show idxBelowLast (some v :: rest) number = none from by
            simp [idxBelowLast, hr, hv]]
          rw [ih] at hr
          simp only [true_iff]
          intro j w hj
          cases j with
          | zero =>
            simp only [List.getD_cons_zero, Option.some.injEq] at hj
            omega
          | succ j => exact hr j w (by simpa using hj)

theorem idxBelowLast_eq_some_iff (l : List (Option Int)) (number : Int) (s : Nat) :
    idxBelowLast l number = some s ↔
      (∃ v, l.getD s none = some v ∧ v < number) ∧
        ∀ j, s < j → ∀ v, l.getD j none = some v → number ≤ v := by
  induction l generalizing s with
  | nil => simp [idxBelowLast]
  | cons o rest ih =>
    cases hr : idxBelowLast rest number with
    | some j =>
      rw [show idxBelowLast (o :: rest) number = some (j + 1) from by
        simp [idxBelowLast, hr]]
      constructor
      · rintro h
        injection h with h
        subst h
        obtain ⟨⟨v, hv, hlt⟩, haft⟩ := (ih j).mp hr
        refine ⟨⟨v, by simpa using hv, hlt⟩, ?_⟩
        intro k hk w hw
        cases k with
        | zero => omega
        | succ k => exact haft k (by omega) w (by simpa using hw)
      · rintro ⟨⟨v, hv, hlt⟩, haft⟩
        cases s with
        | zero =>
          obtain ⟨w, hw, hwlt⟩ := idxBelowLast_some_val rest number j hr
          exact absurd (haft (j + 1) (by omega) w (by simpa using hw)) (by omega)
        | succ s =>
          have hs : idxBelowLast rest number = some s :=
            (ih s).mpr ⟨⟨v, by simpa using hv, hlt⟩,
              fun k hk w hw => haft (k + 1) (by omega) w (by simpa using hw)⟩
          rw [hr] at hs
          injection hs with hs
          rw [hs]
    | none =>
      have hrn := (idxBelowLast_eq_none_iff rest number).mp hr
      cases o with
      | none =>
        rw [show idxBelowLast (none :: rest) number = none from by simp [idxBelowLast, hr]]
        constructor
        · rintro h
          cases h
        · rintro ⟨⟨v, hv, hlt⟩, haft⟩
          exfalso
          cases s with
          | zero => simp at hv
          | succ s =>
            have := hrn s v (by simpa using hv)
            omega
      | some v =>
        by_cases hv : v < number
        · rw [show idxBelowLast (some v :: rest) number = some 0 from by
            simp [idxBelowLast, hr, hv]]
          constructor
          · rintro h
            injection h with h
            subst h
            refine ⟨⟨v, by simp, hv⟩, ?_⟩
            intro k hk w hw
            cases k with
            | zero => omega
            | succ k => exact hrn k w (by simpa using hw)
          · rintro ⟨⟨w, hw, hwlt⟩, haft⟩
            cases s with
            | zero => rfl
            | succ s =>
              exfalso
              have := hrn s w (by simpa using hw)
              omega
        · rw [show idxBelowLast (some v :: rest) number = none from by
            simp [idxBelowLast, hr, hv]]
          constructor
          · rintro h
            cases h
          · rintro ⟨⟨w, hw, hwlt⟩, haft⟩
            exfalso
            cases s with
            | zero =>
              simp only [List.getD_cons_zero, Option.some.injEq] at hw
              omega
            | succ s =>
              have := hrn s w (by simpa using hw)
              omega

theorem idxBelowLast_cons_none (Y : List (Option Int)) (number : Int) :
    idxBelowLast (none :: Y) number = (idxBelowLast Y number).map (· + 1) := by
  cases h : idxBelowLast Y number <;> simp [idxBelowLast, h]

theorem idxBelowLast_cons_some_lt (v : Int) (Y : List (Option Int)) (number : Int)
    (hv : v < number) :
    idxBelowLast (some v :: Y) number =
      some (match idxBelowLast Y number with | some j => j + 1 | none => 0) := by
  cases h : idxBelowLast Y number <;> simp [idxBelowLast, h, hv]

theorem idxBelowLast_cons_some_ge (v : Int) (Y : List (Option Int)) (number : Int)
    (hv : ¬ v < number) :
    idxBelowLast (some v :: Y) number = (idxBelowLast Y number).map (· + 1) := by
  cases h : idxBelowLast Y number <;> simp [idxBelowLast, h, hv]

/-- The scan loop computes exactly the claimed indices: its `end` is the
leftmost occupied index with value above `number`, and its `start` is the
rightmost occupied index with value below `number` among the slots before the
stopping point (offset by `i`, with `s` as the incoming accumulator). -/
theorem findGapScan_eq (l : List (Option Int)) (number : Int) :
    ∀ (i : Nat) (s : Option Nat),
      findGapScan l number i s =
        ((match idxBelowLast (l.take ((idxAbove l number).getD l.length)) number with
          | some j => some (i + j)
          | none => s),
         (idxAbove l number).map (fun e => i + e)) := by
  induction l with
  | nil =>
    intro i s
    simp [findGapScan, idxAbove, idxBelowLast]
  | cons o rest ih =>
    intro i s
    cases o with
    | none =>
      rw [show findGapScan (none :: rest) number i s = findGapScan rest number (i + 1) s
        from rfl, ih]
      rw [show idxAbove (none :: rest) number = (idxAbove rest number).map (· + 1) from rfl]
      cases he : idxAbove rest number with
      | none =>
        simp only [Option.map_none', Option.getD_none, List.length_cons]
        rw [List.take_succ_cons, List.take_length, idxBelowLast_cons_none]
        cases hb : idxBelowLast rest number with
        | none => simp [hb]
        | some j =>
          simp only [hb, Option.map_some']
          have : i + 1 + j = i + (j + 1) := by omega
          rw [this]
      | some e =>
        simp only [Option.map_some', Option.getD_some]
        rw [List.take_succ_cons, idxBelowLast_cons_none]
        cases hb : idxBelowLast (rest.take e) number with
        | none =>
          simp only [hb, Option.map_none']
          have : i + 1 + e = i + (e + 1) := by omega
          rw [this]
        | some j =>
          simp only [hb, Option.map_some']
          have h1 : i + 1 + j = i + (j + 1) := by omega
          have h2 : i + 1 + e = i + (e + 1) := by omega
          rw [h1, h2]
    | some v =>
      rw [show findGapScan (some v :: rest) number i s =
        if v < number then findGapScan rest number (i + 1) (some i)
        else if number < v then (s, some i)
        else findGapScan rest number (i + 1) s from rfl]
      by_cases hv : v < number
      · rw [if_pos hv, ih]
        rw [show idxAbove (some v :: rest) number = (idxAbove rest number).map (· + 1) from by
          simp only [idxAbove, if_neg (show ¬ number < v by omega)]]
        cases he : idxAbove rest number with
        | none =>
          simp only [Option.map_none', Option.getD_none, List.length_cons]
          rw [List.take_succ_cons, List.take_length, idxBelowLast_cons_some_lt v rest number hv]
          cases hb : idxBelowLast rest number with
          | none => simp [hb]
          | some j =>
            simp only [hb]
            have : i + 1 + j = i + (j + 1) := by omega
            rw [this]
        | some e =>
          simp only [Option.map_some', Option.getD_some]
          rw [List.take_succ_cons, idxBelowLast_cons_some_lt v (rest.take e) number hv]
          cases hb : idxBelowLast (rest.take e) number with
          | none =>
            simp only [hb]
            have : i + 1 + e = i + (e + 1) := by omega
            rw [this]
            simp
          | some j =>
            simp only [hb]
            have h1 : i + 1 + j = i + (j + 1) := by omega
            have h2 : i + 1 + e = i + (e + 1) := by omega
            rw [h1, h2]
      · by_cases hnv : number < v
        · rw [if_neg hv, if_pos hnv]
          rw [show idxAbove (some v :: rest) number = some 0 from by
            simp only [idxAbove, if_pos hnv]]
          simp [idxBelowLast]
        · rw [if_neg hv, if_neg hnv, ih]
          rw [show idxAbove (some v :: rest) number = (idxAbove rest number).map (· + 1) from by
            simp only [idxAbove, if_neg hnv]]
          cases he : idxAbove rest number with
          | none =>
            simp only [Option.map_none', Option.getD_none, List.length_cons]
            rw [List.take_succ_cons, List.take_length, idxBelowLast_cons_some_ge v rest number hv]
            cases hb : idxBelowLast rest number with
            | none => simp [hb]
            | some j =>
              simp only [hb, Option.map_some']
              have : i + 1 + j = i + (j + 1) := by omega
              rw [this]
          | some e =>
            simp only [Option.map_some', Option.getD_some]
            rw [List.take_succ_cons, idxBelowLast_cons_some_ge v (rest.take e) number hv]
            cases hb : idxBelowLast (rest.take e) number with
            | none =>
              simp only [hb, Option.map_none']
              have : i + 1 + e = i + (e + 1) := by omega
              rw [this]
            | some j =>
              simp only [hb, Option.map_some']
              have h1 : i + 1 + j = i + (j + 1) := by omega
              have h2 : i + 1 + e = i + (e + 1) := by omega
              rw [h1, h2]

/-- `find_valid_gap` equals the claimed resolution table applied to the claimed
`start` and `end` indices. -/
theorem find_valid_gap_eq_resolve (board : List (Option Int)) (number : Int) :
    find_valid_gap board number = resolveGap board (specStart board number) (specEnd board number) := by
  unfold find_valid_gap
  rw [findGapScan_eq]
  unfold specStart specStop specEnd resolveGap
  cases hb : idxBelowLast (board.take ((idxAbove board number).getD board.length)) number with
  | none => cases he : idxAbove board number <;> simp [he, hb]
  | some j => cases he : idxAbove board number <;> simp [he, hb]

/-! ### List access helpers -/

theorem getD_take_eq {α : Type} (l : List α) (d : α) :
    ∀ (t j : Nat), (l.take t).getD j d = if j < t then l.getD j d else d := by
  induction l with
  | nil => intro t j; simp
  | cons a rest ih =>
    intro t j
    cases t with
    | zero => simp
    | succ t =>
      cases j with
      | zero => simp
      | succ j =>
        rw [List.take_succ_cons, List.getD_cons_succ, List.getD_cons_succ, ih t j]
        by_cases h : j < t
        · rw [if_pos h, if_pos (by omega)]
        · rw [if_neg h, if_neg (by omega)]

theorem getD_set_self {α : Type} (l : List α) :
    ∀ (k : Nat) (a d : α), k < l.length → (l.set k a).getD k d = a := by
  induction l with
  | nil => intro k a d h; simp at h
  | cons b rest ih =>
    intro k a d h
    cases k with
    | zero => simp
    | succ k =>
      rw [List.set_cons_succ, List.getD_cons_succ]
      exact ih k a d (by simpa using h)

theorem getD_set_ne {α : Type} (l : List α) :
    ∀ (k j : Nat) (a d : α), j ≠ k → (l.set k a).getD j d = l.getD j d := by
  induction l with
  | nil => intro k j a d h; simp
  | cons b rest ih =>
    intro k j a d h
    cases k with
    | zero =>
      cases j with
      | zero => omega
      | succ j => simp
    | succ k =>
      cases j with
      | zero => simp
      | succ j =>
        rw [List.set_cons_succ, List.getD_cons_succ, List.getD_cons_succ]
        exact ih k j a d (by omega)

theorem mem_of_mem_set {α : Type} (l : List α) :
    ∀ (k : Nat) (a x : α), x ∈ l.set k a → x = a ∨ x ∈ l := by
  induction l with
  | nil => intro k a x h; simp at h
  | cons b rest ih =>
    intro k a x h
    cases k with
    | zero =>
      rw [List.set_cons_zero] at h
      rcases List.mem_cons.mp h with h | h
      · exact Or.inl h
      · exact Or.inr (List.mem_cons_of_mem _ h)
    | succ k =>
      rw [List.set_cons_succ] at h
      rcases List.mem_cons.mp h with h | h
      · exact Or.inr (by simp [h])
      · rcases ih k a x h with h | h
        · exact Or.inl h
        · exact Or.inr (List.mem_cons_of_mem _ h)

theorem getD_eq_some_mem (l : List (Option Int)) :
    ∀ (j : Nat) (v : Int), l.getD j none = some v → some v ∈ l := by
  induction l with
  | nil => intro j v h; simp at h
  | cons o rest ih =>
    intro j v h
    cases j with
    | zero =>
      rw [List.getD_cons_zero] at h
      simp [h]
    | succ j =>
      rw [List.getD_cons_succ] at h
      exact List.mem_cons_of_mem _ (ih j v h)

theorem someMem_iff_getD (l : List (Option Int)) (a : Int) :
    some a ∈ l ↔ ∃ j, l.getD j none = some a := by
  constructor
  · intro h
    induction l with
    | nil => simp at h
    | cons o rest ih =>
      rcases List.mem_cons.mp h with h | h
      · exact ⟨0, by simp [h.symm]⟩
      · obtain ⟨j, hj⟩ := ih h
        exact ⟨j + 1, by simpa using hj⟩
  · rintro ⟨j, hj⟩
    exact getD_eq_some_mem l j a hj

/-- The sorted-board invariant in index form: any two occupied slots are in
strictly increasing value order. -/
theorem boardSorted_iff (board : List (Option Int)) :
    BoardSorted board ↔
      ∀ i j vi vj, i < j → board.getD i none = some vi →
        board.getD j none = some vj → vi < vj := by
  induction board with
  | nil =>
    simp only [BoardSorted, List.reduceOption_nil]
    constructor
    · intro _ i j vi vj _ hi _
      simp at hi
    · intro _
      exact List.Pairwise.nil
  | cons o rest ih =>
    cases o with
    | none =>
      have hcons : BoardSorted (none :: rest) ↔ BoardSorted rest := by
        simp [BoardSorted, List.reduceOption_cons_of_none]
      rw [hcons, ih]
      constructor
      · intro h i j vi vj hij hi hj
        cases i with
        | zero => simp at hi
        | succ i =>
          cases j with
          | zero => omega
          | succ j =>
            exact h i j vi vj (by omega) (by simpa using hi) (by simpa using hj)
      · intro h i j vi vj hij hi hj
        exact h (i + 1) (j + 1) vi vj (by omega) (by simpa using hi) (by simpa using hj)
    | some v =>
      have hcons : BoardSorted (some v :: rest) ↔
          ((∀ w ∈ rest.reduceOption, v < w) ∧ BoardSorted rest) := by
        simp [BoardSorted, List.reduceOption_cons_of_some, List.pairwise_cons]
      rw [hcons, ih]
      constructor
      · rintro ⟨hhead, htail⟩ i j vi vj hij hi hj
        cases i with
        | zero =>
          rw [List.getD_cons_zero] at hi
          injection hi with hi
          subst hi
          cases j with
          | zero => omega
          | succ j =>
            exact hhead vj (List.reduceOption_mem_iff.mpr
              (getD_eq_some_mem rest j vj (by simpa using hj)))
        | succ i =>
          cases j with
          | zero => omega
          | succ j =>
            exact htail i j vi vj (by omega) (by simpa using hi) (by simpa using hj)
      · intro h
        refine ⟨?_, ?_⟩
        · intro w hw
          obtain ⟨j, hj⟩ := (someMem_iff_getD rest w).mp (List.reduceOption_mem_iff.mp hw)
          exact h 0 (j + 1) v w (by omega) (by simp) (by simpa using hj)
        · intro i j vi vj hij hi hj
          exact h (i + 1) (j + 1) vi vj (by omega) (by simpa using hi) (by simpa using hj)

/-! ### Structure of returned gaps -/

theorem gap_cases (board : List (Option Int)) (number : Int) (g : Gap)
    (hg : find_valid_gap board number = some g) :
    (specStart board number = none ∧ specEnd board number = none ∧
       g = ⟨LOWER_BOUND, UPPER_BOUND, 0, NUM_SLOTS - 1⟩) ∨
    (∃ e, specStart board number = none ∧ specEnd board number = some e ∧ e ≠ 0 ∧
       g = ⟨LOWER_BOUND, valAt board e, 0, e - 1⟩) ∨
    (∃ s, specStart board number = some s ∧ specEnd board number = none ∧
       s ≠ NUM_SLOTS - 1 ∧ g = ⟨valAt board s, UPPER_BOUND, s + 1, NUM_SLOTS - 1⟩) ∨
    (∃ s e, specStart board number = some s ∧ specEnd board number = some e ∧
       1 < e - s ∧ g = ⟨valAt board s, valAt board e, s + 1, e - 1⟩) := by
  rw [find_valid_gap_eq_resolve] at hg
  cases hs : specStart board number with
  | none =>
    cases he : specEnd board number with
    | none =>
      rw [hs, he] at hg
      simp only [resolveGap] at hg
      injection hg with hg
      exact Or.inl ⟨rfl, rfl, hg.symm⟩
    | some e =>
      rw [hs, he] at hg
      simp only [resolveGap] at hg
      by_cases h0 : e = 0
      · rw [if_pos h0] at hg
        cases hg
      · rw [if_neg h0] at hg
        injection hg with hg
        exact Or.inr (Or.inl ⟨e, rfl, rfl, h0, hg.symm⟩)
  | some s =>
    cases he : specEnd board number with
    | none =>
      rw [hs, he] at hg
      simp only [resolveGap] at hg
      by_cases h19 : s = NUM_SLOTS - 1
      · rw [if_pos h19] at hg
        cases hg
      · rw [if_neg h19] at hg
        injection hg with hg
        exact Or.inr (Or.inr (Or.inl ⟨s, rfl, rfl, h19, hg.symm⟩))
    | some e =>
      rw [hs, he] at hg
      simp only [resolveGap] at hg
      by_cases hadj : e - s ≤ 1
      · rw [if_pos hadj] at hg
        cases hg
      · rw [if_neg hadj] at hg
        injection hg with hg
        exact Or.inr (Or.inr (Or.inr ⟨s, e, rfl, rfl, by omega, hg.symm⟩))

theorem specEnd_some_facts (board : List (Option Int)) (number : Int) (e : Nat)
    (he : specEnd board number = some e) :
    (∃ v, board.getD e none = some v ∧ number < v) ∧
      ∀ j, j < e → ∀ w, board.getD j none = some w → w ≤ number :=
  (idxAbove_eq_some_iff board number e).mp he

theorem specEnd_none_facts (board : List (Option Int)) (number : Int)
    (he : specEnd board number = none) :
    ∀ j w, board.getD j none = some w → w ≤ number :=
  (idxAbove_eq_none_iff board number).mp he

theorem specStart_some_facts (board : List (Option Int)) (number : Int) (s : Nat)
    (hs : specStart board number = some s) :
    (∃ v, board.getD s none = some v ∧ v < number) ∧ s < specStop board number ∧
      ∀ j, s < j → j < specStop board number →
        ∀ w, board.getD j none = some w → number ≤ w := by
  obtain ⟨⟨v, hv, hlt⟩, haft⟩ :=
    (idxBelowLast_eq_some_iff (board.take (specStop board number)) number s).mp hs
  rw [getD_take_eq] at hv
  by_cases hlt2 : s < specStop board number
  · rw [if_pos hlt2] at hv
    refine ⟨⟨v, hv, hlt⟩, hlt2, ?_⟩
    intro j hj hjstop w hw
    exact haft j hj w (by rw [getD_take_eq, if_pos hjstop]; exact hw)
  · rw [if_neg hlt2] at hv
    cases hv

theorem specStart_none_facts (board : List (Option Int)) (number : Int)
    (hs : specStart board number = none) :
    ∀ j, j < specStop board number → ∀ w, board.getD j none = some w → number ≤ w := by
  have h := (idxBelowLast_eq_none_iff (board.take (specStop board number)) number).mp hs
  intro j hj w hw
  exact h j w (by rw [getD_take_eq, if_pos hj]; exact hw)

theorem specStop_of_end_some (board : List (Option Int)) (number : Int) (e : Nat)
    (he : specEnd board number = some e) : specStop board number = e := by
  unfold specStop
  rw [he]
  rfl

theorem specStop_of_end_none (board : List (Option Int)) (number : Int)
    (he : specEnd board number = none) : specStop board number = board.length := by
  unfold specStop
  rw [he]
  rfl

theorem valAt_eq (board : List (Option Int)) (i : Nat) (v : Int)
    (h : board.getD i none = some v) : valAt board i = v := by
  unfold valAt
  rw [h]
  rfl

theorem getD_some_lt_length (board : List (Option Int)) (j : Nat) (v : Int)
    (h : board.getD j none = some v) : j < board.length := by
  by_contra hge
  rw [List.getD_eq_default board none (by omega)] at h
  cases h

/-- Well-formedness of the index range of any returned gap, on a 20-slot
board. -/
theorem gap_shape (board : List (Option Int)) (number : Int) (g : Gap)
    (hlen : board.length = NUM_SLOTS)
    (hg : find_valid_gap board number = some g) :
    g.first_index ≤ g.last_index ∧ g.last_index < NUM_SLOTS := by
  rcases gap_cases board number g hg with
    ⟨_, _, rfl⟩ | ⟨e, _, he, h0, rfl⟩ | ⟨s, hs, he, h19, rfl⟩ | ⟨s, e, hs, he, hadj, rfl⟩
  · dsimp only
    simp only [NUM_SLOTS]
    omega
  · obtain ⟨⟨v, hv, _⟩, _⟩ := specEnd_some_facts board number e he
    have hel := getD_some_lt_length board e v hv
    dsimp only
    simp only [NUM_SLOTS] at hlen hel ⊢
    omega
  · obtain ⟨⟨v, hv, _⟩, _, _⟩ := specStart_some_facts board number s hs
    have hsl := getD_some_lt_length board s v hv
    dsimp only
    simp only [NUM_SLOTS] at hlen hsl h19 ⊢
    omega
  · obtain ⟨⟨v, hv, _⟩, _⟩ := specEnd_some_facts board number e he
    have hel := getD_some_lt_length board e v hv
    dsimp only
    simp only [NUM_SLOTS] at hlen hel ⊢
    omega

/-- Every slot inside a returned gap is empty, provided `number` is not already
on the (20-slot) board. -/
theorem gap_slots_empty (board : List (Option Int)) (number : Int) (g : Gap)
    (hlen : board.length = NUM_SLOTS) (hmem : some number ∉ board)
    (hg : find_valid_gap board number = some g) :
    ∀ k, g.first_index ≤ k → k ≤ g.last_index → board.getD k none = none := by
  have hval : ∀ k w, board.getD k none = some w → w ≠ number := by
    intro k w hk hwn
    subst hwn
    exact hmem (getD_eq_some_mem board k w hk)
  rcases gap_cases board number g hg with
    ⟨hs, he, rfl⟩ | ⟨e, hs, he, h0, rfl⟩ | ⟨s, hs, he, h19, rfl⟩ | ⟨s, e, hs, he, hadj, rfl⟩
  · dsimp only
    intro k _ hk
    cases hb : board.getD k none with
    | none => rfl
    | some w =>
      have h1 := specEnd_none_facts board number he k w hb
      have h2 := specStart_none_facts board number hs k
        (by rw [specStop_of_end_none board number he]; exact getD_some_lt_length board k w hb)
        w hb
      exact absurd (show w = number by omega) (hval k w hb)
  · dsimp only
    intro k _ hk
    cases hb : board.getD k none with
    | none => rfl
    | some w =>
      obtain ⟨_, hbef⟩ := specEnd_some_facts board number e he
      have h1 := hbef k (by omega) w hb
      have h2 := specStart_none_facts board number hs k
        (by rw [specStop_of_end_some board number e he]; omega) w hb
      exact absurd (show w = number by omega) (hval k w hb)
  · dsimp only
    intro k hk1 hk2
    cases hb : board.getD k none with
    | none => rfl
    | some w =>
      have h1 := specEnd_none_facts board number he k w hb
      obtain ⟨_, _, haft⟩ := specStart_some_facts board number s hs
      have h2 := haft k (by omega)
        (by rw [specStop_of_end_none board number he]; exact getD_some_lt_length board k w hb)
        w hb
      exact absurd (show w = number by omega) (hval k w hb)
  · dsimp only
    intro k hk1 hk2
    cases hb : board.getD k none with
    | none => rfl
    | some w =>
      obtain ⟨_, hbef⟩ := specEnd_some_facts board number e he
      have h1 := hbef k (by omega) w hb
      obtain ⟨_, _, haft⟩ := specStart_some_facts board number s hs
      have h2 := haft k (by omega)
        (by rw [specStop_of_end_some board number e he]; omega) w hb
      exact absurd (show w = number by omega) (hval k w hb)

/-- The numeric bounds of any returned gap strictly bracket `number`, for a
number inside the game's global range. -/
theorem gap_bounds (board : List (Option Int)) (number : Int) (g : Gap)
    (hlo : LOWER_BOUND < number) (hhi : number < UPPER_BOUND)
    (hg : find_valid_gap board number = some g) :
    g.lower < number ∧ number < g.upper := by
  rcases gap_cases board number g hg with
    ⟨_, _, rfl⟩ | ⟨e, _, he, _, rfl⟩ | ⟨s, hs, _, _, rfl⟩ | ⟨s, e, hs, he, _, rfl⟩
  · exact ⟨hlo, hhi⟩
  · obtain ⟨⟨v, hv, hlt⟩, _⟩ := specEnd_some_facts board number e he
    dsimp only
    rw [valAt_eq board e v hv]
    exact ⟨hlo, hlt⟩
  · obtain ⟨⟨v, hv, hlt⟩, _, _⟩ := specStart_some_facts board number s hs
    dsimp only
    rw [valAt_eq board s v hv]
    exact ⟨hlt, hhi⟩
  · obtain ⟨⟨v, hv, hvlt⟩, _, _⟩ := specStart_some_facts board number s hs
    obtain ⟨⟨w, hw, hwlt⟩, _⟩ := specEnd_some_facts board number e he
    dsimp only
    rw [valAt_eq board s v hv, valAt_eq board e w hw]
    exact ⟨hvlt, hwlt⟩

/-- On a sorted 20-slot board not containing `number`, every occupied slot left
of a returned gap holds a value below `number` and every occupied slot right of
it a value above `number`. -/
theorem gap_neighbors (board : List (Option Int)) (number : Int) (g : Gap)
    (hlen : board.length = NUM_SLOTS) (hmem : some number ∉ board)
    (hsort : BoardSorted board) (hg : find_valid_gap board number = some g) :
    ∀ j w, board.getD j none = some w →
      (j < g.first_index → w < number) ∧ (g.last_index < j → number < w) := by
  have hsortD := (boardSorted_iff board).mp hsort
  have hval : ∀ k w, board.getD k none = some w → w ≠ number := by
    intro k w hk hwn
    subst hwn
    exact hmem (getD_eq_some_mem board k w hk)
  rcases gap_cases board number g hg with
    ⟨hs, he, rfl⟩ | ⟨e, hs, he, h0, rfl⟩ | ⟨s, hs, he, h19, rfl⟩ | ⟨s, e, hs, he, hadj, rfl⟩
  · dsimp only
    intro j w hj
    have h1 := specEnd_none_facts board number he j w hj
    have h2 := specStart_none_facts board number hs j
      (by rw [specStop_of_end_none board number he]; exact getD_some_lt_length board j w hj)
      w hj
    exact absurd (show w = number by omega) (hval j w hj)
  · dsimp only
    intro j w hj
    obtain ⟨⟨v, hv, hvlt⟩, _⟩ := specEnd_some_facts board number e he
    constructor
    · intro h
      omega
    · intro h
      rcases Nat.lt_or_ge (e - 1) j with hje | hje
      · have hje2 : e = j ∨ e < j := by omega
        rcases hje2 with rfl | hje2
        · rw [hj] at hv
          injection hv with hv
          omega
        · have := hsortD e j v w hje2 hv hj
          omega
      · omega
  · dsimp only
    intro j w hj
    obtain ⟨⟨v, hv, hvlt⟩, _, _⟩ := specStart_some_facts board number s hs
    constructor
    · intro h
      have hjs : j = s ∨ j < s := by omega
      rcases hjs with rfl | hjs
      · rw [hj] at hv
        injection hv with hv
        omega
      · have := hsortD j s w v hjs hj hv
        omega
    · intro h
      have := getD_some_lt_length board j w hj
      simp only [NUM_SLOTS] at *
      omega
  · dsimp only
    intro j w hj
    obtain ⟨⟨v, hv, hvlt⟩, _, _⟩ := specStart_some_facts board number s hs
    obtain ⟨⟨u, hu, hult⟩, _⟩ := specEnd_some_facts board number e he
    constructor
    · intro h
      have hjs : j = s ∨ j < s := by omega
      rcases hjs with rfl | hjs
      · rw [hj] at hv
        injection hv with hv
        omega
      · have := hsortD j s w v hjs hj hv
        omega
    · intro h
      have hje : e = j ∨ e < j := by omega
      rcases hje with rfl | hje
      · rw [hj] at hu
        injection hu with hu
        omega
      · have := hsortD e j u w hje hu hj
        omega

/-! ### Engine invariants -/

theorem engineChoose_in_range (s : StrategyM) (hc : ChooseInRange s) (g : Gap)
    (number : Int) (board : List (Option Int)) (hfl : g.first_index ≤ g.last_index) :
    g.first_index ≤ engineChoose s.want_full_control s.choose_slot g number board ∧
      engineChoose s.want_full_control s.choose_slot g number board ≤ g.last_index := by
  unfold engineChoose
  split
  · exact hc g.lower g.upper g.first_index g.last_index number board hfl
  · split
    · exact ⟨Nat.le_refl _, hfl⟩
    · split
      · exact ⟨hfl, Nat.le_refl _⟩
      · split
        · split
          · exact ⟨Nat.le_refl _, hfl⟩
          · exact ⟨hfl, Nat.le_refl _⟩
        · exact hc g.lower g.upper g.first_index g.last_index number board hfl

theorem stepOne_board_inv (s : StrategyM) (hc : ChooseInRange s) (st : StratState)
    (number : Int) (hlen : st.board.length = NUM_SLOTS) (hsort : BoardSorted st.board)
    (hmem : some number ∉ st.board) :
    (stepOne s st number).board.length = NUM_SLOTS ∧
      BoardSorted (stepOne s st number).board ∧
      ∀ m : Int, some m ∈ (stepOne s st number).board → m = number ∨ some m ∈ st.board := by
  unfold stepOne
  split
  · exact ⟨hlen, hsort, fun m hm => Or.inr hm⟩
  · cases hg : find_valid_gap st.board number with
    | none =>
      exact ⟨hlen, hsort, fun m hm => Or.inr hm⟩
    | some gap =>
      dsimp only
      obtain ⟨hfl, hlast⟩ := gap_shape st.board number gap hlen hg
      obtain ⟨hcf, hcl⟩ := engineChoose_in_range s hc gap number st.board hfl
      have hempty := gap_slots_empty st.board number gap hlen hmem hg
      have hnb := gap_neighbors st.board number gap hlen hmem hsort hg
      have hsortD := (boardSorted_iff st.board).mp hsort
      generalize hch : engineChoose s.want_full_control s.choose_slot gap number st.board = chosen
      rw [hch] at hcf hcl
      have hchlt : chosen < st.board.length := by
        rw [hlen]
        omega
      refine ⟨by simp [hlen], ?_, ?_⟩
      · rw [boardSorted_iff]
        intro i j vi vj hij hi hj
        by_cases hic : i = chosen
        · subst hic
          rw [getD_set_self st.board i (some number) none hchlt] at hi
          injection hi with hi
          subst hi
          rw [getD_set_ne st.board i j (some number) none (by omega)] at hj
          by_cases hjl : j ≤ gap.last_index
          · exact absurd hj (by rw [hempty j (by omega) hjl]; simp)
          · exact (hnb j vj hj).2 (by omega)
        · by_cases hjc : j = chosen
          · subst hjc
            rw [getD_set_self st.board j (some number) none hchlt] at hj
            injection hj with hj
            subst hj
            rw [getD_set_ne st.board j i (some number) none (by omega)] at hi
            by_cases hif : gap.first_index ≤ i
            · exact absurd hi (by rw [hempty i hif (by omega)]; simp)
            · exact (hnb i vi hi).1 (by omega)
          · rw [getD_set_ne st.board chosen i (some number) none hic] at hi
            rw [getD_set_ne st.board chosen j (some number) none hjc] at hj
            exact hsortD i j vi vj hij hi hj
      · intro m hm
        rcases mem_of_mem_set st.board chosen (some number) (some m) hm with h | h
        · injection h with h
          exact Or.inl h
        · exact Or.inr h

theorem foldOne_board_inv (s : StrategyM) (hc : ChooseInRange s) :
    ∀ (numbers : List Int) (st : StratState), numbers.Nodup →
      (∀ m ∈ numbers, some m ∉ st.board) →
      st.board.length = NUM_SLOTS → BoardSorted st.board →
      (numbers.foldl (stepOne s) st).board.length = NUM_SLOTS ∧
        BoardSorted (numbers.foldl (stepOne s) st).board := by
  intro numbers
  induction numbers with
  | nil =>
    intro st _ _ hlen hsort
    exact ⟨hlen, hsort⟩
  | cons n rest ih =>
    intro st hnd hmem hlen hsort
    rw [List.foldl_cons]
    obtain ⟨hlen2, hsort2, hsub⟩ :=
      stepOne_board_inv s hc st n hlen hsort (hmem n (List.mem_cons_self n rest))
    apply ih (stepOne s st n) (List.Nodup.of_cons hnd) ?_ hlen2 hsort2
    intro m hm hmm
    rcases hsub m hmm with h | h
    · subst h
      exact (List.nodup_cons.mp hnd).1 hm
    · exact hmem m (List.mem_cons_of_mem n hm) h

theorem zipWith_map_self {α β γ : Type} (l : List α) (g : α → β) (f : α → β → γ) :
    List.zipWith f l (l.map g) = l.map (fun a => f a (g a)) := by
  induction l with
  | nil => rfl
  | cons a rest ih => simp [ih]

theorem runTrial_aux (strats : List StrategyM) :
    ∀ (numbers : List Int) (g : StrategyM → StratState),
      numbers.foldl (fun sts n => List.zipWith (fun s st => stepOne s st n) strats sts)
          (strats.map g) =
        strats.map (fun s => numbers.foldl (stepOne s) (g s)) := by
  intro numbers
  induction numbers with
  | nil => intro g; rfl
  | cons n rest ih =>
    intro g
    rw [List.foldl_cons, zipWith_map_self strats g (fun s st => stepOne s st n),
      ih (fun s => stepOne s (g s) n)]
    simp

/-- The per-strategy trial loop factorises: strategy `i`'s final state depends
only on strategy `i`. -/
theorem runTrial_eq_map (strats : List StrategyM) (numbers : List Int) :
    runTrial strats numbers =
      strats.map (fun s => numbers.foldl (stepOne s) initState) := by
  unfold runTrial
  exact runTrial_aux strats numbers (fun _ => initState)

theorem reduceOption_replicate_none (n : Nat) :
    (List.replicate n (none : Option Int)).reduceOption = [] := by
  induction n with
  | zero => rfl
  | succ n ih => rw [List.replicate_succ, List.reduceOption_cons_of_none, ih]

theorem initState_inv :
    initState.board.length = NUM_SLOTS ∧ BoardSorted initState.board ∧
      ∀ m : Int, some m ∉ initState.board := by
  refine ⟨by simp [initState], ?_, ?_⟩
  · unfold BoardSorted initState
    rw [reduceOption_replicate_none]
    exact List.Pairwise.nil
  · intro m hm
    have := List.eq_of_mem_replicate hm
    cases this

/-! ### Placed-count invariants -/

theorem stepOne_placed (s : StrategyM) (st : StratState) (number : Int)
    (hp : st.placed ≤ NUM_SLOTS) (hpc : st.placed = NUM_SLOTS → st.completed = true) :
    (stepOne s st number).placed ≤ NUM_SLOTS ∧
      ((stepOne s st number).placed = NUM_SLOTS → (stepOne s st number).completed = true) := by
  unfold stepOne
  split
  · exact ⟨hp, hpc⟩
  next hcomp =>
    cases hg : find_valid_gap st.board number with
    | none => exact ⟨hp, fun _ => rfl⟩
    | some gap =>
      dsimp only
      have hne : st.placed ≠ NUM_SLOTS := fun hh => hcomp (hpc hh)
      exact ⟨by omega, fun h => by simp [h]⟩

theorem foldOne_placed (s : StrategyM) :
    ∀ (numbers : List Int) (st : StratState),
      st.placed ≤ NUM_SLOTS → (st.placed = NUM_SLOTS → st.completed = true) →
      (numbers.foldl (stepOne s) st).placed ≤ NUM_SLOTS := by
  intro numbers
  induction numbers with
  | nil =>
    intro st hp _
    exact hp
  | cons n rest ih =>
    intro st hp hpc
    rw [List.foldl_cons]
    obtain ⟨h1, h2⟩ := stepOne_placed s st n hp hpc
    exact ih _ h1 h2

/-! ### Histogram algebra -/

theorem histAdd_assoc (a : List Nat) :
    ∀ b c, histAdd (histAdd a b) c = histAdd a (histAdd b c) := by
  induction a with
  | nil => intro b c; rfl
  | cons x xs ih =>
    intro b c
    cases b with
    | nil => rfl
    | cons y ys =>
      cases c with
      | nil => rfl
      | cons z zs =>
        simp only [histAdd, List.zipWith_cons_cons] at *
        rw [Nat.add_assoc]
        exact congrArg _ (ih ys zs)

theorem histAdd_comm (a : List Nat) : ∀ b, histAdd a b = histAdd b a := by
  induction a with
  | nil => intro b; cases b <;> rfl
  | cons x xs ih =>
    intro b
    cases b with
    | nil => rfl
    | cons y ys =>
      simp only [histAdd, List.zipWith_cons_cons] at *
      rw [Nat.add_comm]
      exact congrArg _ (ih ys)

theorem histAdd_zero_left :
    ∀ (n : Nat) (x : List Nat), x.length = n → histAdd (List.replicate n 0) x = x := by
  intro n
  induction n with
  | zero =>
    intro x hx
    rw [List.length_eq_zero.mp hx]
    rfl
  | succ n ih =>
    intro x hx
    cases x with
    | nil => simp at hx
    | cons y ys =>
      rw [List.replicate_succ]
      simp only [histAdd, List.zipWith_cons_cons, Nat.zero_add]
      exact congrArg _ (ih ys (by simpa using hx))

theorem histAdd_length (a b : List Nat) : (histAdd a b).length = min a.length b.length := by
  unfold histAdd
  exact List.length_zipWith _ _ _

theorem histAdd_sum (a : List Nat) :
    ∀ b, a.length = b.length → (histAdd a b).sum = a.sum + b.sum := by
  induction a with
  | nil =>
    intro b h
    rw [(List.length_eq_zero.mp h.symm)]
    rfl
  | cons x xs ih =>
    intro b h
    cases b with
    | nil => simp at h
    | cons y ys =>
      simp only [histAdd, List.zipWith_cons_cons, List.sum_cons] at *
      rw [ih ys (by simpa using h)]
      omega

theorem histsAdd_assoc (a : List (List Nat)) :
    ∀ b c, histsAdd (histsAdd a b) c = histsAdd a (histsAdd b c) := by
  induction a with
  | nil => intro b c; rfl
  | cons x xs ih =>
    intro b c
    cases b with
    | nil => rfl
    | cons y ys =>
      cases c with
      | nil => rfl
      | cons z zs =>
        simp only [histsAdd, List.zipWith_cons_cons] at *
        rw [histAdd_assoc]
        exact congrArg _ (ih ys zs)

theorem histsAdd_comm (a : List (List Nat)) : ∀ b, histsAdd a b = histsAdd b a := by
  induction a with
  | nil => intro b; cases b <;> rfl
  | cons x xs ih =>
    intro b
    cases b with
    | nil => rfl
    | cons y ys =>
      simp only [histsAdd, List.zipWith_cons_cons] at *
      rw [histAdd_comm]
      exact congrArg _ (ih ys)

theorem histsAdd_empty_left :
    ∀ (n : Nat) (hs : List (List Nat)), hs.length = n →
      (∀ x ∈ hs, x.length = NUM_SLOTS + 1) → histsAdd (emptyHists n) hs = hs := by
  intro n
  induction n with
  | zero =>
    intro hs h1 _
    rw [List.length_eq_zero.mp h1]
    rfl
  | succ n ih =>
    intro hs h1 h2
    cases hs with
    | nil => simp at h1
    | cons x xs =>
      unfold emptyHists
      rw [List.replicate_succ]
      simp only [histsAdd, List.zipWith_cons_cons]
      rw [histAdd_zero_left (NUM_SLOTS + 1) x (h2 x (List.mem_cons_self x xs))]
      exact congrArg _ (ih xs (by simpa using h1)
        (fun z hz => h2 z (List.mem_cons_of_mem x hz)))

theorem histsAdd_empty_right (n : Nat) (hs : List (List Nat)) (h1 : hs.length = n)
    (h2 : ∀ x ∈ hs, x.length = NUM_SLOTS + 1) : histsAdd hs (emptyHists n) = hs := by
  rw [histsAdd_comm]
  exact histsAdd_empty_left n hs h1 h2

theorem histsAdd_shape (a : List (List Nat)) :
    ∀ (b : List (List Nat)) (n : Nat),
      a.length = n → (∀ x ∈ a, x.length = NUM_SLOTS + 1) →
      b.length = n → (∀ x ∈ b, x.length = NUM_SLOTS + 1) →
      (histsAdd a b).length = n ∧ ∀ x ∈ histsAdd a b, x.length = NUM_SLOTS + 1 := by
  induction a with
  | nil =>
    intro b n h1 _ _ _
    simp only [List.length_nil] at h1
    exact ⟨by simp [histsAdd]; omega, by simp [histsAdd]⟩
  | cons x xs ih =>
    intro b n h1 h2 h3 h4
    cases b with
    | nil => simp at h1 h3; omega
    | cons y ys =>
      cases n with
      | zero => simp at h1
      | succ n =>
        simp only [histsAdd, List.zipWith_cons_cons]
        have hxy : (histAdd x y).length = NUM_SLOTS + 1 := by
          rw [histAdd_length, h2 x (List.mem_cons_self x xs), h4 y (List.mem_cons_self y ys)]
          simp
        obtain ⟨ih1, ih2⟩ := ih ys n (by simpa using h1)
          (fun z hz => h2 z (List.mem_cons_of_mem x hz)) (by simpa using h3)
          (fun z hz => h4 z (List.mem_cons_of_mem y hz))
        refine ⟨by rw [List.length_cons, show (List.zipWith histAdd xs ys).length = n from ih1], ?_⟩
        intro z hz
        rcases List.mem_cons.mp hz with rfl | hz
        · exact hxy
        · exact ih2 z hz

theorem getD_mem_of_lt {α : Type} (l : List α) :
    ∀ (i : Nat) (d : α), i < l.length → l.getD i d ∈ l := by
  induction l with
  | nil => intro i d h; simp at h
  | cons x xs ih =>
    intro i d h
    cases i with
    | zero => simp
    | succ i => exact List.mem_cons_of_mem x (ih i d (by simpa using h))

theorem getD_histsAdd (a : List (List Nat)) :
    ∀ (b : List (List Nat)) (i : Nat), i < a.length → i < b.length →
      (histsAdd a b).getD i [] = histAdd (a.getD i []) (b.getD i []) := by
  induction a with
  | nil => intro b i h _; simp at h
  | cons x xs ih =>
    intro b i ha hb
    cases b with
    | nil => simp at hb
    | cons y ys =>
      cases i with
      | zero => simp [histsAdd]
      | succ i =>
        simp only [histsAdd, List.zipWith_cons_cons, List.getD_cons_succ]
        exact ih ys i (by simpa using ha) (by simpa using hb)

theorem getD_map_lt {α β : Type} (l : List α) (f : α → β) (dflt : α) :
    ∀ (i : Nat) (d : β), i < l.length → (l.map f).getD i d = f (l.getD i dflt) := by
  induction l with
  | nil => intro i d h; simp at h
  | cons x xs ih =>
    intro i d h
    cases i with
    | zero => simp
    | succ i =>
      simp only [List.map_cons, List.getD_cons_succ]
      exact ih i d (by simpa using h)

theorem sum_replicate_set_one :
    ∀ (n p : Nat), p < n → ((List.replicate n 0).set p 1).sum = 1 := by
  intro n
  induction n with
  | zero => intro p h; omega
  | succ n ih =>
    intro p hp
    cases p with
    | zero =>
      rw [List.replicate_succ, List.set_cons_zero]
      simp [List.sum_replicate]
    | succ p =>
      rw [List.replicate_succ, List.set_cons_succ]
      simp [ih p (by omega)]

/-! ### Driver-level lemmas -/

theorem runTrial_length (strats : List StrategyM) (numbers : List Int) :
    (runTrial strats numbers).length = strats.length := by
  rw [runTrial_eq_map]
  simp

theorem trialHist_shape (strats : List StrategyM) (numbers : List Int) :
    (trialHist strats numbers).length = strats.length ∧
      ∀ x ∈ trialHist strats numbers, x.length = NUM_SLOTS + 1 := by
  constructor
  · unfold trialHist
    rw [List.length_map, runTrial_length]
  · intro x hx
    unfold trialHist at hx
    obtain ⟨st, _, rfl⟩ := List.mem_map.mp hx
    rw [List.length_set, List.length_replicate]

theorem trialHist_getD_sum (strats : List StrategyM) (numbers : List Int) (i : Nat)
    (hi : i < strats.length) :
    ((trialHist strats numbers).getD i []).sum = 1 := by
  unfold trialHist
  rw [runTrial_eq_map, List.map_map]
  rw [getD_map_lt strats _ stratFirst i [] hi]
  have hin1 : initState.placed ≤ NUM_SLOTS := by simp [initState]
  have hin2 : initState.placed = NUM_SLOTS → initState.completed = true := by
    intro h
    exact absurd h (by decide)
  have hple := foldOne_placed (strats.getD i stratFirst) numbers initState hin1 hin2
  refine sum_replicate_set_one (NUM_SLOTS + 1) _ ?_
  show (List.foldl (stepOne (strats.getD i stratFirst)) initState numbers).placed
    < NUM_SLOTS + 1
  omega

theorem emptyHists_shape (n : Nat) :
    (emptyHists n).length = n ∧ ∀ x ∈ emptyHists n, x.length = NUM_SLOTS + 1 := by
  constructor
  · simp [emptyHists]
  · intro x hx
    rw [List.eq_of_mem_replicate hx]
    simp

theorem runSimAux_shape (strats : List StrategyM) :
    ∀ (trials : List (List Int)) (acc : List (List Nat)),
      acc.length = strats.length → (∀ x ∈ acc, x.length = NUM_SLOTS + 1) →
      (trials.foldl (fun a numbers => histsAdd a (trialHist strats numbers)) acc).length
          = strats.length ∧
        ∀ x ∈ trials.foldl (fun a numbers => histsAdd a (trialHist strats numbers)) acc,
          x.length = NUM_SLOTS + 1 := by
  intro trials
  induction trials with
  | nil =>
    intro acc h1 h2
    exact ⟨h1, h2⟩
  | cons t ts ih =>
    intro acc h1 h2
    rw [List.foldl_cons]
    obtain ⟨g1, g2⟩ := trialHist_shape strats t
    obtain ⟨k1, k2⟩ := histsAdd_shape acc (trialHist strats t) strats.length h1 h2 g1 g2
    exact ih _ k1 k2

theorem runSim_shape (strats : List StrategyM) (trials : List (List Int)) :
    (runSimulationsMulti strats trials).length = strats.length ∧
      ∀ x ∈ runSimulationsMulti strats trials, x.length = NUM_SLOTS + 1 := by
  obtain ⟨e1, e2⟩ := emptyHists_shape strats.length
  exact runSimAux_shape strats trials (emptyHists strats.length) e1 e2

theorem runSimAux_sum (strats : List StrategyM) :
    ∀ (trials : List (List Int)) (acc : List (List Nat)),
      acc.length = strats.length → (∀ x ∈ acc, x.length = NUM_SLOTS + 1) →
      ∀ i, i < strats.length →
        ((trials.foldl (fun a numbers => histsAdd a (trialHist strats numbers)) acc).getD i []).sum
          = (acc.getD i []).sum + trials.length := by
  intro trials
  induction trials with
  | nil =>
    intro acc _ _ i _
    simp
  | cons t ts ih =>
    intro acc h1 h2 i hi
    rw [List.foldl_cons]
    obtain ⟨g1, g2⟩ := trialHist_shape strats t
    obtain ⟨k1, k2⟩ := histsAdd_shape acc (trialHist strats t) strats.length h1 h2 g1 g2
    rw [ih _ k1 k2 i hi]
    rw [getD_histsAdd acc (trialHist strats t) i (by omega) (by omega)]
    rw [histAdd_sum (acc.getD i []) ((trialHist strats t).getD i [])
      (by rw [h2 (acc.getD i []) (getD_mem_of_lt acc i [] (by omega)),
        g2 ((trialHist strats t).getD i []) (getD_mem_of_lt (trialHist strats t) i [] (by omega))])]
    rw [trialHist_getD_sum strats t i hi]
    simp only [List.length_cons]
    omega

theorem runSimAux_perm (strats : List StrategyM) :
    ∀ {t1 t2 : List (List Int)}, t1.Perm t2 →
      ∀ acc, t1.foldl (fun a numbers => histsAdd a (trialHist strats numbers)) acc
        = t2.foldl (fun a numbers => histsAdd a (trialHist strats numbers)) acc := by
  intro t1 t2 hp
  induction hp with
  | nil => intro acc; rfl
  | cons x _ ih =>
    intro acc
    rw [List.foldl_cons, List.foldl_cons, ih]
  | swap x y l =>
    intro acc
    rw [List.foldl_cons, List.foldl_cons, List.foldl_cons, List.foldl_cons]
    rw [histsAdd_assoc, histsAdd_assoc, histsAdd_comm (trialHist strats y) (trialHist strats x)]
  | trans _ _ ih1 ih2 =>
    intro acc
    rw [ih1, ih2]

theorem runSimAux_factor (strats : List StrategyM) :
    ∀ (trials : List (List Int)) (acc : List (List Nat)),
      acc.length = strats.length → (∀ x ∈ acc, x.length = NUM_SLOTS + 1) →
      trials.foldl (fun a numbers => histsAdd a (trialHist strats numbers)) acc
        = histsAdd acc (runSimulationsMulti strats trials) := by
  intro trials
  induction trials with
  | nil =>
    intro acc h1 h2
    rw [show runSimulationsMulti strats [] = emptyHists strats.length from rfl]
    rw [histsAdd_empty_right strats.length acc h1 h2]
    rfl
  | cons t ts ih =>
    intro acc h1 h2
    obtain ⟨g1, g2⟩ := trialHist_shape strats t
    obtain ⟨k1, k2⟩ := histsAdd_shape acc (trialHist strats t) strats.length h1 h2 g1 g2
    have hrs : runSimulationsMulti strats (t :: ts) =
        ts.foldl (fun a numbers => histsAdd a (trialHist strats numbers))
          (trialHist strats t) := by
      unfold runSimulationsMulti
      rw [List.foldl_cons, histsAdd_empty_left strats.length _ g1 g2]
    rw [List.foldl_cons, ih _ k1 k2, hrs, ih (trialHist strats t) g1 g2, histsAdd_assoc]

theorem foldl_histsAdd_factor (n : Nat) :
    ∀ (l : List (List (List Nat))) (a : List (List Nat)),
      a.length = n → (∀ x ∈ a, x.length = NUM_SLOTS + 1) →
      (∀ h ∈ l, h.length = n ∧ ∀ x ∈ h, x.length = NUM_SLOTS + 1) →
      l.foldl histsAdd a = histsAdd a (l.foldl histsAdd (emptyHists n)) := by
  intro l
  induction l with
  | nil =>
    intro a h1 h2 _
    rw [List.foldl_nil, List.foldl_nil, histsAdd_empty_right n a h1 h2]
  | cons h hs ih =>
    intro a h1 h2 hl
    obtain ⟨hh1, hh2⟩ := hl h (List.mem_cons_self h hs)
    obtain ⟨k1, k2⟩ := histsAdd_shape a h n h1 h2 hh1 hh2
    rw [List.foldl_cons, List.foldl_cons]
    rw [ih _ k1 k2 (fun z hz => hl z (List.mem_cons_of_mem _ hz))]
    rw [histsAdd_empty_left n h hh1 hh2]
    rw [ih h hh1 hh2 (fun z hz => hl z (List.mem_cons_of_mem _ hz))]
    rw [histsAdd_assoc]

theorem runSim_partition (strats : List StrategyM) :
    ∀ (groups : List (List (List Int))),
      (groups.map (fun g₀ => runSimulationsMulti strats g₀)).foldl histsAdd
          (emptyHists strats.length)
        = runSimulationsMulti strats groups.join := by
  intro groups
  induction groups with
  | nil => rfl
  | cons gr grs ih =>
    obtain ⟨r1, r2⟩ := runSim_shape strats gr
    rw [List.map_cons, List.foldl_cons, show (gr :: grs).join = gr ++ grs.join from rfl]
    rw [histsAdd_empty_left strats.length _ r1 r2]
    have hrs : runSimulationsMulti strats (gr ++ grs.join) =
        histsAdd (runSimulationsMulti strats gr) (runSimulationsMulti strats grs.join) := by
      have happ : runSimulationsMulti strats (gr ++ grs.join) =
          grs.join.foldl (fun a numbers => histsAdd a (trialHist strats numbers))
            (runSimulationsMulti strats gr) := by
        unfold runSimulationsMulti
        rw [List.foldl_append]
      rw [happ]
      exact runSimAux_factor strats grs.join _ r1 r2
    rw [hrs, ← ih]
    apply foldl_histsAdd_factor strats.length _ _ r1 r2
    intro h hh
    obtain ⟨g₀, _, rfl⟩ := List.mem_map.mp hh
    exact runSim_shape strats g₀

/-! ### Lookup-table strategy lemmas -/

theorem bestCandidateGo_lt (offset : Int) :
    ∀ (cands : List Candidate) (i : Nat), cands ≠ [] →
      i ≤ bestCandidateGo offset i cands ∧
        bestCandidateGo offset i cands < i + cands.length := by
  intro cands
  induction cands with
  | nil => intro i h; exact absurd rfl h
  | cons c rest ih =>
    intro i _
    unfold bestCandidateGo
    split
    · exact ⟨Nat.le_refl i, by simp⟩
    · cases rest with
      | nil =>
        unfold bestCandidateGo
        simp only [List.length_cons, List.length_nil]
        omega
      | cons d ds =>
        obtain ⟨ih1, ih2⟩ := ih (i + 1) (by simp)
        simp only [List.length_cons] at *
        omega

theorem bestCandidateGo_find (offset : Int) :
    ∀ (cands : List Candidate) (c : Candidate) (i : Nat),
      cands.find? (fun x => offset ≤ x.upper_bound) = some c →
      ∃ j, bestCandidateGo offset i cands = i + j ∧ cands.getD j ⟨0, 0⟩ = c := by
  intro cands
  induction cands with
  | nil =>
    intro c i h
    simp at h
  | cons x rest ih =>
    intro c i hf
    by_cases hx : offset ≤ x.upper_bound
    · rw [List.find?_cons_of_pos _ (by simpa using hx)] at hf
      injection hf with hf
      refine ⟨0, ?_, by simpa using hf⟩
      unfold bestCandidateGo
      rw [if_pos hx]
      omega
    · rw [List.find?_cons_of_neg _ (by simpa using hx)] at hf
      obtain ⟨j, hj1, hj2⟩ := ih c (i + 1) hf
      refine ⟨j + 1, ?_, by simpa using hj2⟩
      unfold bestCandidateGo
      rw [if_neg hx, hj1]
      omega

theorem lookupChoose_none_iff (table : Nat × Nat → List Candidate)
    (lo hi : Int) (f l : Nat) (n : Int) :
    lookupChoose table lo hi f l n = none ↔
      table (l - f + 1, (hi - lo - 1).toNat) = [] := by
  unfold lookupChoose
  dsimp only
  cases h : table (l - f + 1, (hi - lo - 1).toNat) with
  | nil => simp
  | cons c rest => simp

theorem lookupChoose_find (table : Nat × Nat → List Candidate)
    (lo hi : Int) (f l : Nat) (n : Int) (c : Candidate)
    (hf : (table (l - f + 1, (hi - lo - 1).toNat)).find?
      (fun x => (n - lo - 1) ≤ x.upper_bound) = some c) :
    lookupChoose table lo hi f l n = some (f + c.placement_index) := by
  unfold lookupChoose
  dsimp only
  cases h : table (l - f + 1, (hi - lo - 1).toNat) with
  | nil =>
    rw [h] at hf
    simp at hf
  | cons d rest =>
    rw [h] at hf
    obtain ⟨j, hj1, hj2⟩ := bestCandidateGo_find (n - lo - 1) (d :: rest) c 0 hf
    unfold bestCandidateIndex
    rw [hj1]
    simp only [Nat.zero_add]
    rw [hj2]

theorem lookupChoose_some_in_range (table : Nat × Nat → List Candidate)
    (lo hi : Int) (f l : Nat) (n : Int) (r : Nat)
    (hwf : ∀ c ∈ table (l - f + 1, (hi - lo - 1).toNat),
      c.placement_index < l - f + 1)
    (hfl : f ≤ l)
    (hr : lookupChoose table lo hi f l n = some r) :
    f ≤ r ∧ r ≤ l := by
  unfold lookupChoose at hr
  dsimp only at hr
  rcases h : table (l - f + 1, (hi - lo - 1).toNat) with _ | ⟨d, rest⟩
  case nil =>
    rw [h] at hr
    cases hr
  case cons =>
    rw [h] at hr
    injection hr with hr
    subst hr
    obtain ⟨hlo2, hhi2⟩ := bestCandidateGo_lt (n - lo - 1) (d :: rest) 0 (by simp)
    have hij : bestCandidateIndex (d :: rest) (n - lo - 1) < (d :: rest).length := by
      unfold bestCandidateIndex
      omega
    have hmem : (d :: rest).getD (bestCandidateIndex (d :: rest) (n - lo - 1)) ⟨0, 0⟩
        ∈ table (l - f + 1, (hi - lo - 1).toNat) := by
      rw [h]
      exact getD_mem_of_lt (d :: rest) _ ⟨0, 0⟩ hij
    have hplt := hwf _ hmem
    constructor
    · exact Nat.le_add_right f _
    · omega

/-! ### OptimalWin strategy lemma -/

theorem optimalWinChoose_in_range (lo hi : Int) (f l : Nat) (n : Int)
    (b : List (Option Int)) (hfl : f ≤ l) :
    f ≤ optimalWinChoose lo hi f l n b ∧ optimalWinChoose lo hi f l n b ≤ l := by
  unfold optimalWinChoose
  dsimp only
  have hmin := Nat.min_le_right ((((n - lo) * ((l - f + 1 : Nat) : Int)) / (hi - lo)).toNat)
    (l - f + 1 - 1)
  constructor
  · exact Nat.le_add_right f _
  · omega

/-! ### Range lemmas for the remaining strategies -/

theorem add_min_last_le (f l X : Nat) (hfl : f ≤ l) :
    f + min X (l - f + 1 - 1) ≤ l := by
  have := Nat.min_le_right X (l - f + 1 - 1)
  omega

theorem add_one_add_min_le (f l X : Nat) (hfl : f ≤ l) (h3 : 3 ≤ l - f + 1) :
    f + 1 + min X (l - f + 1 - 3) ≤ l := by
  have := Nat.min_le_right X (l - f + 1 - 3)
  omega

theorem cautiousOptimalChoose_in_range (eps : Nat) (lo hi : Int) (f l : Nat)
    (n : Int) (b : List (Option Int)) (hfl : f ≤ l) (h3 : 3 ≤ l - f + 1) :
    f ≤ cautiousOptimalChoose eps lo hi f l n b ∧
      cautiousOptimalChoose eps lo hi f l n b ≤ l := by
  unfold cautiousOptimalChoose
  dsimp only
  split
  · exact ⟨Nat.le_refl f, hfl⟩
  · split
    · exact ⟨hfl, Nat.le_refl l⟩
    · exact ⟨by omega, add_one_add_min_le f l _ hfl h3⟩

theorem gaussianChoose_in_range (newFraction : Int → Int → Int → Rat)
    (lo hi : Int) (f l : Nat) (n : Int) (b : List (Option Int)) (hfl : f ≤ l) :
    f ≤ gaussianChoose newFraction lo hi f l n b ∧
      gaussianChoose newFraction lo hi f l n b ≤ l := by
  unfold gaussianChoose
  dsimp only
  exact ⟨Nat.le_add_right f _, add_min_last_le f l _ hfl⟩

theorem argmax_fold_fst_lt (score : Nat → Rat) (m : Nat) :
    ∀ (l : List Nat) (acc : Nat × Rat), acc.1 < m → (∀ k ∈ l, k < m) →
      (l.foldl (fun (acc : Nat × Rat) k => if acc.2 < score k then (k, score k) else acc)
        acc).1 < m := by
  intro l
  induction l with
  | nil =>
    intro acc hacc _
    exact hacc
  | cons k rest ih =>
    intro acc hacc hl
    rw [List.foldl_cons]
    apply ih
    · by_cases hc : acc.2 < score k
      · rw [if_pos hc]
        exact hl k (List.mem_cons_self k rest)
      · rw [if_neg hc]
        exact hacc
    · exact fun j hj => hl j (List.mem_cons_of_mem k hj)

theorem argmaxScore_lt (score : Nat → Rat) (m : Nat) (hm : 0 < m) :
    argmaxScore score m < m := by
  unfold argmaxScore
  exact argmax_fold_fst_lt score m (List.range m) (0, -1) hm
    (fun k hk => List.mem_range.mp hk)

theorem add_argmax_le (f l : Nat) (score : Nat → Rat) (hfl : f ≤ l) :
    f + argmaxScore score (l - f + 1) ≤ l := by
  have := argmaxScore_lt score (l - f + 1) (by omega)
  omega

theorem binomialChoose_in_range (lo hi : Int) (f l : Nat) (n : Int)
    (b : List (Option Int)) (hfl : f ≤ l) :
    f ≤ binomialChoose lo hi f l n b ∧ binomialChoose lo hi f l n b ≤ l := by
  unfold binomialChoose
  dsimp only
  exact ⟨Nat.le_add_right f _, add_argmax_le f l _ hfl⟩

theorem binomialQuantizedChoose_in_range (lo hi : Int) (f l : Nat) (n : Int)
    (b : List (Option Int)) (hfl : f ≤ l) :
    f ≤ binomialQuantizedChoose lo hi f l n b ∧
      binomialQuantizedChoose lo hi f l n b ≤ l := by
  unfold binomialQuantizedChoose
  dsimp only
  exact ⟨Nat.le_add_right f _, add_argmax_le f l _ hfl⟩

theorem middleChoose_in_range (lo hi : Int) (f l : Nat) (n : Int)
    (b : List (Option Int)) (hfl : f ≤ l) :
    f ≤ middleChoose lo hi f l n b ∧ middleChoose lo hi f l n b ≤ l := by
  unfold middleChoose
  omega

/-! ### Engine dispatch case analysis -/

theorem engineChoose_true_eq (c : Int → Int → Nat → Nat → Int → List (Option Int) → Nat)
    (g : Gap) (n : Int) (b : List (Option Int)) :
    engineChoose true c g n b = c g.lower g.upper g.first_index g.last_index n b :=
  rfl

theorem engineChoose_false_eq (c : Int → Int → Nat → Nat → Int → List (Option Int) → Nat)
    (g : Gap) (n : Int) (b : List (Option Int)) :
    engineChoose false c g n b =
      (match forcedSlot g n with
       | some k => k
       | none => c g.lower g.upper g.first_index g.last_index n b) := by
  unfold engineChoose forcedSlot
  rw [if_neg (by simp)]
  by_cases h1 : g.first_index = g.last_index ∨ n = g.lower + 1
  · rw [if_pos h1, if_pos h1]
  · rw [if_neg h1, if_neg h1]
    by_cases h2 : n + 1 = g.upper
    · rw [if_pos h2, if_pos h2]
    · rw [if_neg h2, if_neg h2]
      by_cases h3 : g.first_index = g.last_index - 1
      · rw [if_pos h3, if_pos h3]
      · rw [if_neg h3, if_neg h3]

/-! ### Bracketing indices on sorted boards -/

theorem specStart_eq_global (board : List (Option Int)) (number : Int)
    (hsort : BoardSorted board) :
    specStart board number = idxBelowLast board number := by
  have hsortD := (boardSorted_iff board).mp hsort
  cases he : specEnd board number with
  | none =>
    unfold specStart
    rw [specStop_of_end_none board number he, List.take_length]
  | some e =>
    unfold specStart
    rw [specStop_of_end_some board number e he]
    obtain ⟨⟨v, hv, hnv⟩, hbef⟩ := specEnd_some_facts board number e he
    cases hg : idxBelowLast board number with
    | none =>
      rw [idxBelowLast_eq_none_iff] at hg ⊢
      intro j w hj
      rw [getD_take_eq] at hj
      by_cases hje : j < e
      · rw [if_pos hje] at hj
        exact hg j w hj
      · rw [if_neg hje] at hj
        cases hj
    | some s =>
      obtain ⟨⟨w, hw, hwlt⟩, haft⟩ := (idxBelowLast_eq_some_iff board number s).mp hg
      have hse : s < e := by
        rcases Nat.lt_trichotomy s e with h | h | h
        · exact h
        · subst h
          rw [hv] at hw
          injection hw with hw
          omega
        · have := hsortD e s v w h hv hw
          omega
      rw [idxBelowLast_eq_some_iff]
      refine ⟨⟨w, ?_, hwlt⟩, ?_⟩
      · rw [getD_take_eq, if_pos hse]
        exact hw
      · intro j hj u hu
        rw [getD_take_eq] at hu
        by_cases hje : j < e
        · rw [if_pos hje] at hu
          exact haft j hj u hu
        · rw [if_neg hje] at hu
          cases hu

theorem find_none_iff_noGapAmended (board : List (Option Int)) (number : Int)
    (hlen : board.length = NUM_SLOTS) (hmem : some number ∉ board)
    (hsort : BoardSorted board) :
    find_valid_gap board number = none ↔ noGapAmended board number := by
  have hsortD := (boardSorted_iff board).mp hsort
  rw [find_valid_gap_eq_resolve, specStart_eq_global board number hsort]
  unfold noGapAmended specEnd
  cases hbl : idxBelowLast board number with
  | none =>
    cases hbh : idxAbove board number with
    | none => simp [resolveGap]
    | some e =>
      by_cases h0 : e = 0
      · simp [resolveGap, h0]
      · simp [resolveGap, h0]
  | some s =>
    cases hbh : idxAbove board number with
    | none =>
      by_cases h19 : s = NUM_SLOTS - 1
      · simp [resolveGap, h19]
      · simp [resolveGap, h19]
    | some e =>
      obtain ⟨⟨w, hw, hwlt⟩, _⟩ := (idxBelowLast_eq_some_iff board number s).mp hbl
      obtain ⟨⟨v, hv, hnv⟩, _⟩ := (idxAbove_eq_some_iff board number e).mp hbh
      have hse : s < e := by
        rcases Nat.lt_trichotomy s e with h | h | h
        · exact h
        · subst h
          rw [hv] at hw
          injection hw with hw
          omega
        · have := hsortD e s v w h hv hw
          omega
      by_cases hadj : e - s ≤ 1
      · rw [show resolveGap board (some s) (some e) = none from by
          simp only [resolveGap]; rw [if_pos hadj]]
        simp only [true_iff]
        omega
      · rw [show resolveGap board (some s) (some e) =
          some ⟨valAt board s, valAt board e, s + 1, e - 1⟩ from by
          simp only [resolveGap]; rw [if_neg hadj]]
        constructor
        · intro h
          cases h
        · intro h
          omega

/-! ### Claim theorems -/

/-- C1 (counterexample): the claim as stated is false — on the gap
`(lower 0, upper 10, slots 2..5)` with draw `1` the forced rule
`number == lower + 1` makes `forcedSlot` answer slot `2`, yet the engine,
dispatching a strategy whose `want_full_control` is `true`, uses the
strategy's `choose_slot` result `5` instead of the forced slot. -/
theorem C1_counterexample :
    forcedSlot gapForced 1 = some 2 ∧
      engineChoose true chooseLastFn gapForced 1 [] = 5 ∧
      engineChoose true chooseLastFn gapForced 1 [] ≠ 2 := by
  decide

/-- C1 (amended): per draw the engine applies the forced fast-path rules ahead
of strategy dispatch only for strategies whose `want_full_control` flag is
false; a strategy with the flag set has its `choose_slot` invoked directly on
every gap, bypassing the forced rules. -/
theorem C1_engine_dispatch
    (c : Int → Int → Nat → Nat → Int → List (Option Int) → Nat)
    (g : Gap) (n : Int) (b : List (Option Int)) (k : Nat)
    (h : forcedSlot g n = some k) :
    engineChoose false c g n b = k ∧
      engineChoose true c g n b = c g.lower g.upper g.first_index g.last_index n b := by
  constructor
  · rw [engineChoose_false_eq, h]
  · exact engineChoose_true_eq c g n b

theorem C1_engine_dispatch_witness :
    engineChoose false chooseLastFn gapForced 1 [] = 2 ∧
      engineChoose true chooseLastFn gapForced 1 [] =
        chooseLastFn gapForced.lower gapForced.upper gapForced.first_index
          gapForced.last_index 1 [] :=
  C1_engine_dispatch chooseLastFn gapForced 1 [] 2 (by decide)

/-- C2 (counterexample): the claim as stated is false — on the 20-slot board
`3, 5, _, ...` the draw `5` (a value already on the board) yields the gap
`(3, 1000, indices 1..19)` whose slot `1` is occupied. -/
theorem C2_counterexample :
    find_valid_gap boardDup 5 = some ⟨3, UPPER_BOUND, 1, 19⟩ ∧
      (⟨3, UPPER_BOUND, 1, 19⟩ : Gap).first_index ≤ 1 ∧
      1 ≤ (⟨3, UPPER_BOUND, 1, 19⟩ : Gap).last_index ∧
      boardDup.getD 1 none ≠ none := by
  decide

/-- C2 (amended): for every 20-slot board that does not contain `number` and
every `number` strictly inside the global sentinel range, whenever
`find_valid_gap` returns a gap, every slot in `[first_index, last_index]` is
empty and `lower < number < upper`. -/
theorem C2_gap_validity (board : List (Option Int)) (number : Int) (g : Gap)
    (hlen : board.length = NUM_SLOTS) (hmem : some number ∉ board)
    (hlo : LOWER_BOUND < number) (hhi : number < UPPER_BOUND)
    (hg : find_valid_gap board number = some g) :
    (∀ k, g.first_index ≤ k → k ≤ g.last_index → board.getD k none = none) ∧
      g.lower < number ∧ number < g.upper :=
  ⟨gap_slots_empty board number g hlen hmem hg,
   (gap_bounds board number g hlo hhi hg).1,
   (gap_bounds board number g hlo hhi hg).2⟩

theorem C2_gap_validity_witness :
    (List.replicate 20 (none : Option Int)).getD 3 none = none ∧
      (⟨LOWER_BOUND, UPPER_BOUND, 0, NUM_SLOTS - 1⟩ : Gap).lower < 500 ∧
      (500 : Int) < (⟨LOWER_BOUND, UPPER_BOUND, 0, NUM_SLOTS - 1⟩ : Gap).upper := by
  have h := C2_gap_validity (List.replicate 20 none) 500
    ⟨LOWER_BOUND, UPPER_BOUND, 0, NUM_SLOTS - 1⟩
    (by decide) (by decide) (by decide) (by decide) (by decide)
  exact ⟨h.1 3 (by decide) (by decide), h.2⟩

/-- C3 (counterexample): the claim as stated is false — on the 20-slot board
`10, 12, _, ...` with draw `11` the function returns `none` (the bracketing
occupied slots are adjacent), yet the integer `11` lies strictly between the
two bracketing occupied values `10` and `12`, so the claimed right-hand side
does not hold. -/
theorem C3_counterexample :
    find_valid_gap boardPair 11 = none ∧ ¬ noGapStated boardPair 11 := by
  constructor
  · decide
  · intro hc
    have h1 : idxBelowLast boardPair 11 = some 0 := by decide
    have h2 : idxAbove boardPair 11 = some 1 := by decide
    unfold noGapStated at hc
    rw [h1, h2] at hc
    exact hc ⟨11, by decide, by decide⟩

/-- C3 (amended): for every sorted 20-slot board not containing `number`,
`find_valid_gap` returns `none` iff the occupied slots bracketing `number` are
adjacent (no empty slot between them), or the leftmost occupied slot above
`number` is at index 0 when no occupied value is below `number`, or the
rightmost occupied slot below `number` is the last index when no occupied
value is above `number`. -/
theorem C3_none_characterisation (board : List (Option Int)) (number : Int)
    (hlen : board.length = NUM_SLOTS) (hmem : some number ∉ board)
    (hsort : BoardSorted board) :
    find_valid_gap board number = none ↔ noGapAmended board number :=
  find_none_iff_noGapAmended board number hlen hmem hsort

theorem C3_none_characterisation_witness :
    find_valid_gap boardPair 11 = none ↔ noGapAmended boardPair 11 :=
  C3_none_characterisation boardPair 11 (by decide) (by decide)
    (by unfold BoardSorted; decide)

/-- C4: `find_valid_gap` resolves by presence of the start index (rightmost
occupied index with value less than `number` before the scan's stopping point)
and end index (leftmost occupied index with value greater than `number`, where
the scan stops): neither present yields the whole board with sentinel bounds;
only end present yields `none` iff `end = 0`, else indices `[0, end-1]` with
bounds `(sentinel-lower, board[end])`; only start present yields `none` iff
`start` is the last index, else `[start+1, 19]` with bounds
`(board[start], sentinel-upper)`; both present yield `none` iff
`end - start ≤ 1`, else `[start+1, end-1]` with bounds
`(board[start], board[end])`. -/
theorem C4_scan_resolution (board : List (Option Int)) (number : Int) :
    find_valid_gap board number =
      resolveGap board (specStart board number) (specEnd board number) :=
  find_valid_gap_eq_resolve board number

/-- C5 (counterexample): the claim as stated is false — with a lookup table
whose single record for key `(3 slots, 5 values)` carries placement offset 7,
`LookupTableStrategy::choose_slot` on the valid three-slot gap
`(lower 0, upper 6, indices 0..2)` and draw `2` answers slot `7`, outside
`[first_index, last_index]`. -/
theorem C5_counterexample :
    lookupChoose badTable 0 6 0 2 2 = some 7 ∧ ¬ (7 : Nat) ≤ 2 ∧
      (0 : Int) < 2 ∧ (2 : Int) < 6 ∧ (0 : Nat) ≤ 2 ∧ 3 ≤ 2 - 0 + 1 := by
  decide

/-- C5 (amended): on every valid gap input (bounds strictly bracketing the
number, `first ≤ last`, at least 3 slots), every concrete strategy's
`choose_slot` returns an index within `[first_index, last_index]`:
FirstAvailable, LastAvailable and Middle (modelled from the spec),
OptimalWin, CautiousOptimal for every epsilon, Gaussian for every outcome of
its erf-based warp, Binomial and BinomialQuantized (their `f64` internals
modelled exactly over the rationals; the clamps make the bound independent of
the scores) — and LookupTable, provided every table entry under the queried
key has a placement offset smaller than the gap's slot count. -/
theorem C5_choose_in_range (lo hi : Int) (f l : Nat) (n : Int)
    (b : List (Option Int))
    (hfl : f ≤ l) (h3 : 3 ≤ l - f + 1) (hlo : lo < n) (hhi : n < hi) :
    (f ≤ firstAvailableChoose lo hi f l n b ∧ firstAvailableChoose lo hi f l n b ≤ l) ∧
      (f ≤ lastAvailableChoose lo hi f l n b ∧ lastAvailableChoose lo hi f l n b ≤ l) ∧
      (f ≤ middleChoose lo hi f l n b ∧ middleChoose lo hi f l n b ≤ l) ∧
      (f ≤ optimalWinChoose lo hi f l n b ∧ optimalWinChoose lo hi f l n b ≤ l) ∧
      (∀ eps : Nat, f ≤ cautiousOptimalChoose eps lo hi f l n b ∧
        cautiousOptimalChoose eps lo hi f l n b ≤ l) ∧
      (∀ newFraction : Int → Int → Int → Rat,
        f ≤ gaussianChoose newFraction lo hi f l n b ∧
          gaussianChoose newFraction lo hi f l n b ≤ l) ∧
      (f ≤ binomialChoose lo hi f l n b ∧ binomialChoose lo hi f l n b ≤ l) ∧
      (f ≤ binomialQuantizedChoose lo hi f l n b ∧
        binomialQuantizedChoose lo hi f l n b ≤ l) ∧
      ∀ (table : Nat × Nat → List Candidate) (r : Nat),
        (∀ c ∈ table (l - f + 1, (hi - lo - 1).toNat), c.placement_index < l - f + 1) →
        lookupChoose table lo hi f l n = some r → f ≤ r ∧ r ≤ l :=
  ⟨⟨Nat.le_refl f, hfl⟩,
   ⟨hfl, Nat.le_refl l⟩,
   middleChoose_in_range lo hi f l n b hfl,
   optimalWinChoose_in_range lo hi f l n b hfl,
   fun eps => cautiousOptimalChoose_in_range eps lo hi f l n b hfl h3,
   fun newFraction => gaussianChoose_in_range newFraction lo hi f l n b hfl,
   binomialChoose_in_range lo hi f l n b hfl,
   binomialQuantizedChoose_in_range lo hi f l n b hfl,
   fun table r hwf hr => lookupChoose_some_in_range table lo hi f l n r hwf hfl hr⟩

theorem C5_choose_in_range_witness :
    (3 ≤ firstAvailableChoose 0 11 3 7 4 [] ∧ firstAvailableChoose 0 11 3 7 4 [] ≤ 7) ∧
      (3 ≤ lastAvailableChoose 0 11 3 7 4 [] ∧ lastAvailableChoose 0 11 3 7 4 [] ≤ 7) ∧
      (3 ≤ middleChoose 0 11 3 7 4 [] ∧ middleChoose 0 11 3 7 4 [] ≤ 7) ∧
      (3 ≤ optimalWinChoose 0 11 3 7 4 [] ∧ optimalWinChoose 0 11 3 7 4 [] ≤ 7) ∧
      (3 ≤ cautiousOptimalChoose 90 0 11 3 7 4 [] ∧
        cautiousOptimalChoose 90 0 11 3 7 4 [] ≤ 7) ∧
      (3 ≤ gaussianChoose (fun _ _ _ => 1 / 2) 0 11 3 7 4 [] ∧
        gaussianChoose (fun _ _ _ => 1 / 2) 0 11 3 7 4 [] ≤ 7) ∧
      (3 ≤ binomialChoose 0 11 3 7 4 [] ∧ binomialChoose 0 11 3 7 4 [] ≤ 7) ∧
      (3 ≤ binomialQuantizedChoose 0 11 3 7 4 [] ∧
        binomialQuantizedChoose 0 11 3 7 4 [] ≤ 7) ∧
      (3 ≤ 5 ∧ (5 : Nat) ≤ 7) := by
  have h := C5_choose_in_range 0 11 3 7 4 [] (by decide) (by decide) (by decide) (by decide)
  exact ⟨h.1, h.2.1, h.2.2.1, h.2.2.2.1, h.2.2.2.2.1 90, h.2.2.2.2.2.1 (fun _ _ _ => 1 / 2),
    h.2.2.2.2.2.2.1, h.2.2.2.2.2.2.2.1, h.2.2.2.2.2.2.2.2 specTable 5 (by decide) (by decide)⟩

/-- C6: for a strategy without the full-control capability the engine's forced
rules apply in order — a one-slot gap places at that slot; `number = lower + 1`
places at `first_index`; else `number + 1 = upper` places at `last_index`;
else a two-slot gap places at `first_index` exactly when `number - lower` is
strictly less than `upper - number` (ties to `last_index`); otherwise the
decision is delegated to `choose_slot`. -/
theorem C6_forced_rule_order (c : Int → Int → Nat → Nat → Int → List (Option Int) → Nat)
    (g : Gap) (n : Int) (b : List (Option Int)) :
    (g.first_index = g.last_index → engineChoose false c g n b = g.first_index) ∧
      (n = g.lower + 1 → engineChoose false c g n b = g.first_index) ∧
      (g.first_index ≠ g.last_index → n ≠ g.lower + 1 → n + 1 = g.upper →
        engineChoose false c g n b = g.last_index) ∧
      (g.first_index ≠ g.last_index → n ≠ g.lower + 1 → n + 1 ≠ g.upper →
        g.first_index = g.last_index - 1 →
        engineChoose false c g n b =
          if n - g.lower < g.upper - n then g.first_index else g.last_index) ∧
      (g.first_index ≠ g.last_index → n ≠ g.lower + 1 → n + 1 ≠ g.upper →
        g.first_index ≠ g.last_index - 1 →
        engineChoose false c g n b = c g.lower g.upper g.first_index g.last_index n b) := by
  refine ⟨?_, ?_, ?_, ?_, ?_⟩
  · intro h1
    unfold engineChoose
    rw [if_neg (by simp), if_pos (Or.inl h1)]
  · intro h2
    unfold engineChoose
    rw [if_neg (by simp), if_pos (Or.inr h2)]
  · intro h1 h2 h3
    unfold engineChoose
    rw [if_neg (by simp), if_neg (by tauto), if_pos h3]
  · intro h1 h2 h3 h4
    unfold engineChoose
    rw [if_neg (by simp), if_neg (by tauto), if_neg h3, if_pos h4]
  · intro h1 h2 h3 h4
    unfold engineChoose
    rw [if_neg (by simp), if_neg (by tauto), if_neg h3, if_neg h4]

theorem C6_forced_rule_order_witness :
    engineChoose false chooseFirstFn ⟨0, 100, 2, 9⟩ 7 [] =
      chooseFirstFn 0 100 2 9 7 [] :=
  (C6_forced_rule_order chooseFirstFn ⟨0, 100, 2, 9⟩ 7 []).2.2.2.2
    (by decide) (by decide) (by decide) (by decide)

/-- C7: in every trial whose draws are distinct and in which every
`choose_slot` call answers inside the offered gap, every strategy's board —
after any number of processed draws — has its occupied values strictly
increasing by index. -/
theorem C7_sorted_invariant (strats : List StrategyM) (numbers : List Int) (k : Nat)
    (hnd : numbers.Nodup) (hc : ∀ s ∈ strats, ChooseInRange s) :
    ∀ st ∈ runTrial strats (numbers.take k), BoardSorted st.board := by
  intro st hst
  rw [runTrial_eq_map] at hst
  obtain ⟨s, hs, rfl⟩ := List.mem_map.mp hst
  obtain ⟨hl0, hs0, hm0⟩ := initState_inv
  have hnd2 : (numbers.take k).Nodup := hnd.sublist (List.take_sublist k numbers)
  exact (foldOne_board_inv s (hc s hs) (numbers.take k) initState hnd2
    (fun m _ => hm0 m) hl0 hs0).2

theorem C7_sorted_invariant_witness :
    BoardSorted (((runTrial [stratFirst] ([5, 3].take 2)).getD 0 initState).board) := by
  have hc : ∀ s ∈ [stratFirst], ChooseInRange s := by
    intro s hs
    rw [List.mem_singleton] at hs
    subst hs
    intro lo hi f l n b hfl
    exact ⟨Nat.le_refl f, hfl⟩
  exact C7_sorted_invariant [stratFirst] [5, 3] 2 (by decide) hc
    ((runTrial [stratFirst] ([5, 3].take 2)).getD 0 initState) (by decide)

/-- C8: for every run over a list of trials, each strategy's histogram
returned by the driver has bucket counts that sum to exactly the number of
trials. -/
theorem C8_histogram_sum (strats : List StrategyM) (trials : List (List Int))
    (i : Nat) (hi : i < strats.length) :
    ((runSimulationsMulti strats trials).getD i []).sum = trials.length := by
  unfold runSimulationsMulti
  obtain ⟨e1, e2⟩ := emptyHists_shape strats.length
  rw [runSimAux_sum strats trials (emptyHists strats.length) e1 e2 i hi]
  have hmem := getD_mem_of_lt (emptyHists strats.length) i [] (by rw [e1]; exact hi)
  rw [List.eq_of_mem_replicate hmem]
  simp [List.sum_replicate]

theorem C8_histogram_sum_witness :
    ((runSimulationsMulti [stratFirst] [[5, 3], [1, 2]]).getD 0 []).sum = 2 :=
  C8_histogram_sum [stratFirst] [[5, 3], [1, 2]] 0 (by decide)

/-- C9: the driver's combine step (elementwise addition of per-strategy bucket
arrays) is associative and commutative with the all-zero histogram collection
as identity, the resulting histograms are invariant under permuting the
trials, and reducing any partition of the trials groupwise gives the same
result as the sequential accumulation over the concatenation. -/
theorem C9_reduction_monoid :
    (∀ a b c : List (List Nat), histsAdd (histsAdd a b) c = histsAdd a (histsAdd b c)) ∧
      (∀ a b : List (List Nat), histsAdd a b = histsAdd b a) ∧
      (∀ (n : Nat) (h : List (List Nat)), h.length = n →
        (∀ x ∈ h, x.length = NUM_SLOTS + 1) →
        histsAdd (emptyHists n) h = h ∧ histsAdd h (emptyHists n) = h) ∧
      (∀ (strats : List StrategyM) (t1 t2 : List (List Int)), t1.Perm t2 →
        runSimulationsMulti strats t1 = runSimulationsMulti strats t2) ∧
      (∀ (strats : List StrategyM) (groups : List (List (List Int))),
        (groups.map (fun g₀ => runSimulationsMulti strats g₀)).foldl histsAdd
            (emptyHists strats.length)
          = runSimulationsMulti strats groups.join) := by
  refine ⟨histsAdd_assoc, histsAdd_comm, ?_, ?_, runSim_partition⟩
  · intro n h h1 h2
    exact ⟨histsAdd_empty_left n h h1 h2, histsAdd_empty_right n h h1 h2⟩
  · intro strats t1 t2 hp
    unfold runSimulationsMulti
    exact runSimAux_perm strats hp _

theorem C9_reduction_monoid_witness :
    runSimulationsMulti [stratFirst] [[5, 3], [1, 2]] =
      runSimulationsMulti [stratFirst] [[1, 2], [5, 3]] :=
  C9_reduction_monoid.2.2.2.1 [stratFirst] [[5, 3], [1, 2]] [[1, 2], [5, 3]] (by decide)

/-- C10: `LookupTableStrategy::choose_slot`, keyed by
`(gap slot-count, gap value-count)` with `offset = number - lower - 1`, aborts
(modelled `none`) exactly when the key has no table entry, and whenever some
entry's threshold is `≥ offset` it returns `first_index` plus the placement
offset of the first such entry. -/
theorem C10_lookup_behaviour (table : Nat × Nat → List Candidate)
    (lo hi : Int) (f l : Nat) (n : Int) :
    (lookupChoose table lo hi f l n = none ↔
      table (l - f + 1, (hi - lo - 1).toNat) = []) ∧
      ∀ c, (table (l - f + 1, (hi - lo - 1).toNat)).find?
          (fun x => (n - lo - 1) ≤ x.upper_bound) = some c →
        lookupChoose table lo hi f l n = some (f + c.placement_index) :=
  ⟨lookupChoose_none_iff table lo hi f l n,
   fun c hc => lookupChoose_find table lo hi f l n c hc⟩

theorem C10_lookup_behaviour_witness :
    lookupChoose specTable 0 11 3 7 4 = some 5 ∧
      lookupChoose specTable 0 11 3 8 4 = none := by
  constructor
  · exact (C10_lookup_behaviour specTable 0 11 3 7 4).2 ⟨4, 2⟩ (by decide)
  · exact (C10_lookup_behaviour specTable 0 11 3 8 4).1.mpr (by decide)

end TwentyNumbers
